import Mathlib

/-!
Verification of `src/scripts/ceo_brief.js` (daily CEO brief generator).

Strings are modelled as `List Char`.  JavaScript string primitives used by the
script (`split("\n")`, `join("\n")`, `slice`, `trim`, `endsWith`,
`replace(".md","")`, regular-expression matching for the two fixed patterns,
lexicographic `<` on strings) are embedded as executable Lean functions on
`List Char`, faithful to ECMAScript semantics on the inputs the script deals
with (all comparisons the script performs are between ASCII date strings, for
which UTF-16 code-unit order and code-point order agree).
-/

/-- ECMAScript WhiteSpace ∪ LineTerminator: the character class matched by the
regular-expression escape `\s` and stripped by `String.prototype.trim`. -/
def jsWs (c : Char) : Bool :=
  c = '\t' || c = '\n' || c = '\u000b' || c = '\u000c' || c = '\r' || c = ' ' ||
  c = '\u00a0' || c = '\u1680' || ('\u2000' ≤ c && c ≤ '\u200a') ||
  c = '\u2028' || c = '\u2029' || c = '\u202f' || c = '\u205f' ||
  c = '\u3000' || c = '\ufeff'

/-- ECMAScript LineTerminator: the positions where a multiline `^` / `$`
anchor matches are delimited by these characters. -/
def lineTerm (c : Char) : Bool :=
  c = '\n' || c = '\r' || c = '\u2028' || c = '\u2029'

/-- Whitespace that is not a line terminator (whitespace that can occur
strictly inside a single line). -/
def inlineWs (c : Char) : Bool := jsWs c && !lineTerm c

theorem jsWs_of_lineTerm {c : Char} (h : lineTerm c = true) : jsWs c = true := by
  simp only [lineTerm, Bool.or_eq_true, decide_eq_true_eq] at h
  rcases h with ((h | h) | h) | h <;> subst h <;> decide

theorem ne_hash_of_jsWs {c : Char} (h : jsWs c = true) : c ≠ '#' := by
  intro hc; subst hc; revert h; decide

/-- JavaScript `s.split("\n")`: split at every newline character; the result is
never empty (splitting the empty string gives `[""]`). -/
def splitNl : List Char → List (List Char)
  | [] => [[]]
  | c :: rest =>
    if c = '\n' then [] :: splitNl rest
    else
      match splitNl rest with
      | h :: t => (c :: h) :: t
      | [] => [[c]]

/-- JavaScript `parts.join("\n")`. -/
def joinNl : List (List Char) → List Char
  | [] => []
  | [x] => x
  | x :: xs => x ++ '\n' :: joinNl xs

/-- Prepend a string to the first line of a line list (describes how a
no-newline prefix merges with the first line of the text that follows it). -/
def consHead (p : List Char) : List (List Char) → List (List Char)
  | [] => [p]
  | h :: t => (p ++ h) :: t

theorem splitNl_ne_nil (l : List Char) : splitNl l ≠ [] := by
  induction l with
  | nil => simp [splitNl]
  | cons c rest ih =>
    simp only [splitNl]
    split
    · simp
    · split
      · simp
      · simp

theorem splitNl_cons_nl (rest : List Char) : splitNl ('\n' :: rest) = [] :: splitNl rest := by
  simp [splitNl]

theorem splitNl_cons_ne (c : Char) (rest : List Char) (hc : c ≠ '\n') :
    splitNl (c :: rest) = consHead [c] (splitNl rest) := by
  simp only [splitNl, if_neg hc]
  rcases h : splitNl rest with _ | ⟨hd, tl⟩
  · exact absurd h (splitNl_ne_nil rest)
  · simp [consHead]

theorem consHead_append (p q : List Char) (xs : List (List Char)) :
    consHead p (consHead q xs) = consHead (p ++ q) xs := by
  cases xs <;> simp [consHead]

theorem splitNl_append_no_nl (a b : List Char) (ha : ∀ c ∈ a, c ≠ '\n') :
    splitNl (a ++ b) = consHead a (splitNl b) := by
  induction a with
  | nil =>
    simp only [List.nil_append]
    rcases h : splitNl b with _ | ⟨hd, tl⟩
    · exact absurd h (splitNl_ne_nil b)
    · simp [consHead]
  | cons c a ih =>
    have hc : c ≠ '\n' := ha c (by simp)
    rw [List.cons_append, splitNl_cons_ne c (a ++ b) hc,
      ih (fun x hx => ha x (by simp [hx])), consHead_append]
    rfl

theorem splitNl_no_nl (a : List Char) (ha : ∀ c ∈ a, c ≠ '\n') :
    splitNl a = [a] := by
  have := splitNl_append_no_nl a [] ha
  simpa [splitNl, consHead] using this

theorem splitNl_append_nl (a b : List Char) (ha : ∀ c ∈ a, c ≠ '\n') :
    splitNl (a ++ '\n' :: b) = a :: splitNl b := by
  rw [splitNl_append_no_nl a ('\n' :: b) ha, splitNl_cons_nl, consHead]
  simp

theorem joinNl_consHead (p : List Char) (xs : List (List Char)) (hxs : xs ≠ []) :
    p ++ joinNl xs = joinNl (consHead p xs) := by
  rcases xs with _ | ⟨h, t⟩
  · exact absurd rfl hxs
  · rcases t with _ | ⟨h2, t2⟩
    · simp [joinNl, consHead]
    · simp [joinNl, consHead]

theorem splitNl_joinNl_append (xs : List (List Char)) (b : List Char)
    (hxs : xs ≠ []) (hnl : ∀ l ∈ xs, ∀ c ∈ l, c ≠ '\n') :
    splitNl (joinNl xs ++ '\n' :: b) = xs ++ splitNl b := by
  induction xs with
  | nil => exact absurd rfl hxs
  | cons x xs ih =>
    rcases xs with _ | ⟨y, ys⟩
    · simp only [joinNl]
      rw [splitNl_append_nl x b (hnl x (by simp))]
      simp
    · have hx : ∀ c ∈ x, c ≠ '\n' := hnl x (by simp)
      have : joinNl (x :: y :: ys) = x ++ '\n' :: joinNl (y :: ys) := rfl
      rw [this, List.append_assoc, List.cons_append,
        splitNl_append_nl x _ hx]
      rw [ih (by simp) (fun l hl => hnl l (by simp [hl]))]
      simp

theorem mem_splitNl_no_nl (t : List Char) : ∀ l ∈ splitNl t, ∀ c ∈ l, c ≠ '\n' := by
  induction t with
  | nil => intro l hl; simp [splitNl] at hl; subst hl; simp
  | cons c rest ih =>
    intro l hl
    by_cases hc : c = '\n'
    · subst hc; rw [splitNl_cons_nl] at hl
      rcases List.mem_cons.mp hl with h | h
      · subst h; simp
      · exact ih l h
    · rw [splitNl_cons_ne c rest hc] at hl
      rcases hrec : splitNl rest with _ | ⟨hd, tl⟩
      · exact absurd hrec (splitNl_ne_nil rest)
      · rw [hrec] at hl; simp only [consHead] at hl
        rcases List.mem_cons.mp hl with h | h
        · subst h; intro d hd'
          rcases List.mem_cons.mp hd' with h | h
          · subst h; exact hc
          · exact ih hd (by rw [hrec]; simp) d h
        · exact ih l (by rw [hrec]; simp [h])

/-! ### The Telegram executive summary (`execSummary` template literal) -/

/-- The condensed Telegram summary `main` builds (the `execSummary` template
literal, lines 133-139 of the script): header naming the date, the priorities
block truncated to its first 6 lines, blockers and decisions truncated to
their first 4 lines, and a link to the long-form report.  A JavaScript
conditional `x ? a : b` on a string is modelled by `if x = [] then b else a`
(the empty string is the only falsy string). -/
def execSummary (date todayTop blockers decisions briefUrl : List Char) : List Char :=
  ("*Netso — CEO Brief (").data ++ date ++ (")*\n*Top priorities:* ").data ++
  (if todayTop = [] then ("_(Not set)_").data else []) ++ ("\n").data ++
  (if todayTop = [] then [] else joinNl ((splitNl todayTop).take 6)) ++
  ("\n\n*Blockers:* ").data ++
  (if blockers = [] then ("_None listed_").data else joinNl ((splitNl blockers).take 4)) ++
  ("\n*Decisions:* ").data ++
  (if decisions = [] then ("_None listed_").data else joinNl ((splitNl decisions).take 4)) ++
  ("\n*Full report:* ").data ++ briefUrl

theorem no_nl_append {a b : List Char} (ha : ∀ c ∈ a, c ≠ '\n') (hb : ∀ c ∈ b, c ≠ '\n') :
    ∀ c ∈ a ++ b, c ≠ '\n' := by
  intro c hc
  rcases List.mem_append.mp hc with h | h
  exacts [ha c h, hb c h]

theorem splitNl_line3 (x1 x2 x3 rest : List Char)
    (h1 : ∀ c ∈ x1, c ≠ '\n') (h2 : ∀ c ∈ x2, c ≠ '\n') (h3 : ∀ c ∈ x3, c ≠ '\n') :
    splitNl (x1 ++ (x2 ++ (x3 ++ '\n' :: rest))) = (x1 ++ x2 ++ x3) :: splitNl rest := by
  rw [← List.append_assoc, ← List.append_assoc]
  refine splitNl_append_nl _ rest ?_
  intro c hc
  rcases List.mem_append.mp hc with hc | hc
  · rcases List.mem_append.mp hc with hc | hc
    · exact h1 c hc
    · exact h2 c hc
  · exact h3 c hc

theorem splitNl_line2 (x1 x2 rest : List Char)
    (h1 : ∀ c ∈ x1, c ≠ '\n') (h2 : ∀ c ∈ x2, c ≠ '\n') :
    splitNl (x1 ++ (x2 ++ '\n' :: rest)) = (x1 ++ x2) :: splitNl rest := by
  rw [← List.append_assoc]
  refine splitNl_append_nl _ rest ?_
  intro c hc
  rcases List.mem_append.mp hc with hc | hc
  · exact h1 c hc
  · exact h2 c hc

theorem splitNl_topSlot (t rest : List Char) :
    splitNl ((if t = [] then [] else joinNl ((splitNl t).take 6)) ++ '\n' :: rest)
      = (if t = [] then [[]] else (splitNl t).take 6) ++ splitNl rest := by
  by_cases ht : t = []
  · simp [ht, splitNl_cons_nl]
  · rw [if_neg ht, if_neg ht,
      splitNl_joinNl_append ((splitNl t).take 6) rest
        (by simp [List.take_eq_nil_iff, splitNl_ne_nil t])
        (fun l hl => mem_splitNl_no_nl t l (List.take_subset 6 (splitNl t) hl))]

theorem consHead_no_nl (p : List Char) (xs : List (List Char))
    (hp : ∀ c ∈ p, c ≠ '\n') (hxs : ∀ l ∈ xs, ∀ c ∈ l, c ≠ '\n') :
    ∀ l ∈ consHead p xs, ∀ c ∈ l, c ≠ '\n' := by
  rcases xs with _ | ⟨h, ts⟩
  · intro l hl; simp [consHead] at hl; subst hl; exact hp
  · intro l hl
    simp only [consHead] at hl
    rcases List.mem_cons.mp hl with hl | hl
    · subst hl; intro c hc
      rcases List.mem_append.mp hc with hc | hc
      · exact hp c hc
      · exact hxs h (by simp) c hc
    · exact hxs l (by simp [hl])

theorem consHead_ne_nil (p : List Char) (xs : List (List Char)) : consHead p xs ≠ [] := by
  cases xs <;> simp [consHead]

theorem splitNl_slotBlock (p x ph rest : List Char) (n : Nat)
    (hp : ∀ c ∈ p, c ≠ '\n') (hph : ∀ c ∈ ph, c ≠ '\n') (hn : n ≠ 0) :
    splitNl (p ++ ((if x = [] then ph else joinNl ((splitNl x).take n)) ++ '\n' :: rest))
      = consHead p (if x = [] then [ph] else (splitNl x).take n) ++ splitNl rest := by
  by_cases hx : x = []
  · rw [if_pos hx, if_pos hx, splitNl_line2 p ph rest hp hph]
    simp [consHead]
  · rw [if_neg hx, if_neg hx, ← List.append_assoc,
      joinNl_consHead p ((splitNl x).take n)
        (by simp [List.take_eq_nil_iff, hn, splitNl_ne_nil x]),
      splitNl_joinNl_append _ rest (consHead_ne_nil _ _)
        (consHead_no_nl p _ hp
          (fun l hl => mem_splitNl_no_nl x l (List.take_subset n (splitNl x) hl)))]

/-- C2 supporting fact: complete description of the line structure of the
executive summary.  The priorities block contributes exactly the first 6 lines
of the extracted priorities text, the blockers and decisions blocks exactly
their first 4 lines (the first such line merged after the fixed label), in
original order, with nothing appended after the truncation point. -/
theorem execSummary_lines (d t b dec u : List Char)
    (hd : ∀ c ∈ d, c ≠ '\n') (hu : ∀ c ∈ u, c ≠ '\n') :
    splitNl (execSummary d t b dec u) =
      [("*Netso — CEO Brief (").data ++ d ++ (")*").data,
        ("*Top priorities:* ").data ++ (if t = [] then ("_(Not set)_").data else [])] ++
      (if t = [] then [[]] else (splitNl t).take 6) ++ [[]] ++
      consHead (("*Blockers:* ").data)
        (if b = [] then [("_None listed_").data] else (splitNl b).take 4) ++
      consHead (("*Decisions:* ").data)
        (if dec = [] then [("_None listed_").data] else (splitNl dec).take 4) ++
      [("*Full report:* ").data ++ u] := by
  have e1 : ∀ z : List Char, (")*\n*Top priorities:* ").data ++ z
      = (")*").data ++ ('\n' :: (("*Top priorities:* ").data ++ z)) := fun z => rfl
  have e2 : ∀ z : List Char, ("\n").data ++ z = '\n' :: z := fun z => rfl
  have e3 : ∀ z : List Char, ("\n\n*Blockers:* ").data ++ z
      = '\n' :: ('\n' :: (("*Blockers:* ").data ++ z)) := fun z => rfl
  have e4 : ∀ z : List Char, ("\n*Decisions:* ").data ++ z
      = '\n' :: (("*Decisions:* ").data ++ z) := fun z => rfl
  have e5 : ∀ z : List Char, ("\n*Full report:* ").data ++ z
      = '\n' :: (("*Full report:* ").data ++ z) := fun z => rfl
  have hAnl : ∀ c ∈ (if t = [] then ("_(Not set)_").data else ([] : List Char)), c ≠ '\n' := by
    split
    · decide
    · intro c hc; simp at hc
  unfold execSummary
  simp only [List.append_assoc]
  simp only [e1, e2, e3, e4, e5]
  rw [splitNl_line3 (("*Netso — CEO Brief (").data) d ((")*").data) _ (by decide) hd (by decide)]
  rw [splitNl_line2 (("*Top priorities:* ").data) _ _ (by decide) hAnl]
  rw [splitNl_topSlot t _, splitNl_cons_nl]
  rw [splitNl_slotBlock (("*Blockers:* ").data) b (("_None listed_").data) _ 4
    (by decide) (by decide) (by decide)]
  rw [splitNl_slotBlock (("*Decisions:* ").data) dec (("_None listed_").data) _ 4
    (by decide) (by decide) (by decide)]
  rw [splitNl_no_nl (("*Full report:* ").data ++ u) (no_nl_append (by decide) hu)]
  simp [List.append_assoc]

/-- C2: for a priorities text with more than 6 newline-delimited lines and
blockers/decisions texts with more than 4 lines, the summary's line list is:
the two header lines, exactly the first 6 priorities lines in original order,
a blank line, exactly the first 4 blockers lines (the first merged after the
fixed label), exactly the first 4 decisions lines, and the report-link line.
All lines beyond each limit are dropped and no ellipsis marker is added. -/
theorem execSummary_truncation (d t b dec u : List Char)
    (hd : ∀ c ∈ d, c ≠ '\n') (hu : ∀ c ∈ u, c ≠ '\n')
    (ht : 6 < (splitNl t).length) (hb : 4 < (splitNl b).length)
    (hdec : 4 < (splitNl dec).length) :
    splitNl (execSummary d t b dec u) =
      [("*Netso — CEO Brief (").data ++ d ++ (")*").data, ("*Top priorities:* ").data] ++
      (splitNl t).take 6 ++ [[]] ++
      consHead (("*Blockers:* ").data) ((splitNl b).take 4) ++
      consHead (("*Decisions:* ").data) ((splitNl dec).take 4) ++
      [("*Full report:* ").data ++ u] := by
  have ht' : t ≠ [] := by
    intro h; subst h; simp [splitNl] at ht
  have hb' : b ≠ [] := by
    intro h; subst h; simp [splitNl] at hb
  have hdec' : dec ≠ [] := by
    intro h; subst h; simp [splitNl] at hdec
  rw [execSummary_lines d t b dec u hd hu, if_neg ht', if_neg ht', if_neg hb', if_neg hdec']
  simp

theorem execSummary_truncation_witness :
    6 < (splitNl ("p1\np2\np3\np4\np5\np6\np7").data).length ∧
    splitNl (execSummary ("2024-01-01").data ("p1\np2\np3\np4\np5\np6\np7").data
        ("b1\nb2\nb3\nb4\nb5").data ("d1\nd2\nd3\nd4\nd5").data ("url").data) =
      [("*Netso — CEO Brief (").data ++ ("2024-01-01").data ++ (")*").data,
        ("*Top priorities:* ").data] ++
      (splitNl ("p1\np2\np3\np4\np5\np6\np7").data).take 6 ++ [[]] ++
      consHead (("*Blockers:* ").data) ((splitNl ("b1\nb2\nb3\nb4\nb5").data).take 4) ++
      consHead (("*Decisions:* ").data) ((splitNl ("d1\nd2\nd3\nd4\nd5").data).take 4) ++
      [("*Full report:* ").data ++ ("url").data] :=
  ⟨by decide, execSummary_truncation _ _ _ _ _ (by decide) (by decide) (by decide)
    (by decide) (by decide)⟩

/-! ### The long-form report (`managerReport` template literal) -/

/-- Placeholder used for an empty top-priorities section. -/
def phPriorities : List Char := "_(Not set — update ops/priorities.md)_".data

/-- Placeholder used for an empty blockers section. -/
def phBlockers : List Char := "_None listed_".data

/-- Placeholder used for an empty decisions section. -/
def phDecisions : List Char := "_None listed_".data

/-- Placeholder used for an empty notes section. -/
def phNotes : List Char := "_No notes_".data

/-- JavaScript `x || ph` on strings: the placeholder is substituted exactly
when `x` is the empty string (the only falsy string). -/
def fallback (x ph : List Char) : List Char := if x = [] then ph else x

/-- The long-form report template with the four content slots already
resolved (the pure concatenation part of the `managerReport` template
literal, lines 100-125 of the script; note the two trailing spaces after the
priorities, blockers and decisions slots, preserved from the source). -/
def reportTemplate (date pSlot yesterdayRef bSlot dSlot nSlot : List Char) : List Char :=
  ("# Daily CEO Brief — Netso\n**Date/time:** ").data ++ date ++
  (" — 10:00 (Asia/Dhaka)\n\n## Detailed Manager Report\n\n### 1) Top priorities (in order)\n").data ++
  pSlot ++ ("  \n\n### 2) Progress since yesterday\n- Reference previous brief: **").data ++
  yesterdayRef ++
  ("**\n- _Update ops/run-log.md with what shipped yesterday so this section becomes factual._\n\n### 3) Blockers / Risks\n").data ++
  bSlot ++ ("  \n\n### 4) Decisions needed\n").data ++
  dSlot ++
  ("  \n\n### 5) Docs/checklists to create or update\n- ops/priorities.md (update daily)\n- ops/run-log.md (log real progress)\n- ops/briefs/").data ++
  date ++ (".md (this report)\n\n## Notes\n").data ++ nSlot ++ ("\n").data

/-- The `managerReport` template literal: each content section falls back to
its fixed placeholder when the extracted text is empty. -/
def managerReport (date todayTop yesterdayRef blockers decisions notes : List Char) :
    List Char :=
  reportTemplate date (fallback todayTop phPriorities) yesterdayRef
    (fallback blockers phBlockers) (fallback decisions phDecisions)
    (fallback notes phNotes)

/-- C3 counterexample: the blockers placeholder and the decisions placeholder
are the same string, so the placeholders are not pairwise distinct per
section type; the report rendered from empty sections uses that one string in
both the blockers and the decisions slots. -/
theorem managerReport_placeholder_clash :
    phBlockers = phDecisions ∧
    managerReport ("2024-01-01").data [] ("N/A").data [] [] [] =
      reportTemplate ("2024-01-01").data phPriorities ("N/A").data
        phBlockers phDecisions phNotes ∧
    phBlockers ≠ phPriorities :=
  ⟨rfl, rfl, by decide⟩

/-- C3 amended: every content section whose extracted text is empty is
replaced by its fixed placeholder string; the priorities and notes
placeholders are distinct from each other and from the shared
blockers/decisions placeholder, but the blockers and decisions sections share
the same placeholder. -/
theorem managerReport_placeholder (d t y b dec n : List Char) :
    (t = [] → managerReport d t y b dec n =
      reportTemplate d phPriorities y (fallback b phBlockers)
        (fallback dec phDecisions) (fallback n phNotes)) ∧
    (b = [] → managerReport d t y b dec n =
      reportTemplate d (fallback t phPriorities) y phBlockers
        (fallback dec phDecisions) (fallback n phNotes)) ∧
    (dec = [] → managerReport d t y b dec n =
      reportTemplate d (fallback t phPriorities) y (fallback b phBlockers)
        phDecisions (fallback n phNotes)) ∧
    (n = [] → managerReport d t y b dec n =
      reportTemplate d (fallback t phPriorities) y (fallback b phBlockers)
        (fallback dec phDecisions) phNotes) ∧
    phPriorities ≠ phBlockers ∧ phBlockers = phDecisions ∧
    phNotes ≠ phBlockers ∧ phPriorities ≠ phNotes := by
  refine ⟨?_, ?_, ?_, ?_, by decide, rfl, by decide, by decide⟩ <;>
    (intro h; subst h; simp [managerReport, fallback])

theorem managerReport_placeholder_witness :
    (([] : List Char) = []) ∧
    managerReport ("2024-01-01").data [] ("N/A").data [] [] [] =
      reportTemplate ("2024-01-01").data phPriorities ("N/A").data
        (fallback [] phBlockers) (fallback [] phDecisions) (fallback [] phNotes) :=
  ⟨rfl, (managerReport_placeholder ("2024-01-01").data [] ("N/A").data [] [] []).1 rfl⟩

/-! ### The section extractor (`extractSection`)

The extractor works with two regular expressions:
`new RegExp("^##\\s+" + escaped(heading) + "\\s*$", "m")` for the heading and
`/^##\s+/m` for the end of the section.  The escaping on line 57 of the
script makes the heading label match literally.  The embedding below models
ECMAScript regex semantics for these two patterns: `^`/`$` with the `m` flag
match at line-terminator boundaries, `\s` matches any whitespace including
line terminators, `\s+`/`\s*` are greedy with backtracking, and matching is
leftmost-first. -/

/-- Length of the maximal whitespace run at the head of `s` (what a greedy
`\s*` consumes before backtracking). -/
def wsRun (s : List Char) : Nat := (s.takeWhile jsWs).length

/-- Does a multiline `$` anchor match at this position (end of input, or a
line terminator next)? -/
def eol : List Char → Bool
  | [] => true
  | c :: _ => lineTerm c

/-- Backtracking for the trailing `\s*$` of the heading pattern: consume `j`
whitespace characters, longest first, until `$` matches. -/
def tryJ (s₂ : List Char) : Nat → Option Nat
  | 0 => if eol s₂ then some 0 else none
  | j + 1 => if eol (s₂.drop (j + 1)) then some (j + 1) else tryJ s₂ j

/-- Backtracking for the `\s+` of the heading pattern `^##\s+L\s*$`: consume
`k ≥ 1` whitespace characters (longest first), then the literal label, then
the trailing `\s*$`; on failure backtrack to a shorter `k`. -/
def tryK (L s₁ : List Char) : Nat → Option Nat
  | 0 => none
  | k + 1 =>
    if L.isPrefixOf (s₁.drop (k + 1)) then
      match tryJ ((s₁.drop (k + 1)).drop L.length)
          (wsRun ((s₁.drop (k + 1)).drop L.length)) with
      | some j => some (2 + (k + 1) + L.length + j)
      | none => tryK L s₁ k
    else tryK L s₁ k

/-- Match of the pattern `##\s+L\s*$` at one anchored position, returning the
length of the matched text (the label `L` is escaped in the source, hence
matched literally). -/
def matchRe1 (L : List Char) : List Char → Option Nat
  | c1 :: c2 :: s₁ => if c1 = '#' ∧ c2 = '#' then tryK L s₁ (wsRun s₁) else none
  | _ => none

/-- Match of `##\s+` at one anchored position (`search` only needs the
position, not the length). -/
def matchRe2 : List Char → Bool
  | c1 :: c2 :: c :: _ => c1 = '#' && c2 = '#' && jsWs c
  | _ => false

/-- Scan a string position by position, testing `f` exactly at the positions
where a multiline `^` anchor matches (position 0 when `b` is set, and every
position directly after a line terminator); return the first position where
`f` succeeds, together with `f`'s answer — the leftmost-match rule of
`String.prototype.match` and `String.prototype.search`. -/
def scanP (f : List Char → Option α) : Bool → List Char → Option (Nat × α)
  | b, [] => if b then (f []).map (fun a => (0, a)) else none
  | b, c :: s' =>
    match (if b then f (c :: s') else none) with
    | some a => some (0, a)
    | none => (scanP f (lineTerm c) s').map (fun pa => (pa.1 + 1, pa.2))

/-- JavaScript `String.prototype.trim`. -/
def trim (l : List Char) : List Char :=
  ((l.dropWhile jsWs).reverse.dropWhile jsWs).reverse

/-- `extractSection(md, heading)` (lines 55-64 of the script): find the first
match of `^##\s+heading\s*$`; if none, return the empty string; otherwise
take the text from the end of the match, cut it at the first match of
`^##\s+` in that remainder (if any), and trim the result. -/
def re2At (s : List Char) : Option Unit := if matchRe2 s then some () else none

def extractSection (md heading : List Char) : List Char :=
  match scanP (matchRe1 heading) true md with
  | none => []
  | some (p, len) =>
    let rest := md.drop (p + len)
    match scanP re2At true rest with
    | none => trim rest
    | some (q, _) => trim (rest.take q)

/-! ### Spec-side (line-based) description of section extraction -/

/-- The current line: characters up to the first line terminator. -/
def lineOf (s : List Char) : List Char := s.takeWhile (fun c => !lineTerm c)

/-- The lines of a document, split at every line terminator character. -/
def linesOf : List Char → List (List Char)
  | [] => [[]]
  | c :: rest =>
    if lineTerm c then [] :: linesOf rest
    else
      match linesOf rest with
      | h :: t => (c :: h) :: t
      | [] => [[c]]

/-- A line consisting of the marker '##' followed by whitespace only. -/
def hashWsOnly : List Char → Bool
  | c1 :: c2 :: r => c1 = '#' && c2 = '#' && r.all jsWs
  | _ => false

/-- No line of the document consists of '##' followed by whitespace only.
The amended claims C1 and C8 are restricted to such documents (on any other
document the regex's whitespace matching can cross line boundaries). -/
def noHashWsLines (md : List Char) : Bool := (linesOf md).all (fun l => !hashWsOnly l)

/-- Decision procedure for the existential in `isHeadingLine`: is there a
`k` with `1 ≤ k ≤ n` such that the line reads '##', `k` whitespace
characters, the label, then whitespace only up to the end of the line? -/
def hlTry (L r : List Char) : Nat → Bool
  | 0 => false
  | k + 1 =>
    (L.isPrefixOf (r.drop (k + 1)) && ((r.drop (k + 1)).drop L.length).all inlineWs) ||
    hlTry L r k

/-- Spec-side matcher, written from the specification's words: a line
consisting of the heading marker '##', whitespace, the exact label, and
optional trailing whitespace. -/
def isHeadingLine (L line : List Char) : Bool :=
  match line with
  | c1 :: c2 :: r => c1 = '#' && c2 = '#' && hlTry L r ((r.takeWhile inlineWs).length)
  | _ => false

/-- Spec-side matcher for the end of a section: a line matching '##'
followed by whitespace. -/
def specNextHead : List Char → Bool
  | c1 :: c2 :: c :: _ => c1 = '#' && c2 = '#' && inlineWs c
  | _ => false

/-- Spec-side description of the claimed behavior of `extractSection`,
written from the specification's words: locate the first line consisting of
'##', whitespace, the exact label and optional trailing whitespace; the
section text is everything strictly between the end of that line and the
next line matching '##' followed by whitespace (or end of document if none
follows), trimmed of leading and trailing whitespace; `none` when no such
heading line exists. -/
def specHeadAt (L t : List Char) : Option Nat :=
  if isHeadingLine L (lineOf t) then some (lineOf t).length else none

def nextHeadAt (t : List Char) : Option Unit := if specNextHead t then some () else none

def specSection (md L : List Char) : Option (List Char) :=
  match scanP (specHeadAt L) true md with
  | none => none
  | some (p, len) =>
    let between := md.drop (p + len)
    match scanP nextHeadAt true between with
    | none => some (trim between)
    | some (q, _) => some (trim (between.take q))

example : extractSection ("## A\nhello\nworld\n## B\nx").data ("A").data
    = ("hello\nworld").data := by decide

example : extractSection ("x\n##\nFoo\nA\n## Foo\nB\n## Next\nC").data ("Foo").data
    = ("A").data := by decide

example : specSection ("x\n##\nFoo\nA\n## Foo\nB\n## Next\nC").data ("Foo").data
    = some (("B").data) := by decide

/-- The positions a scan with initial flag `b` over `s` tests, described as
the suffixes starting there: the whole string when `b` is set, and every
suffix directly preceded by a line terminator. -/
def testedPos (b : Bool) (s t : List Char) : Prop :=
  (b = true ∧ t = s) ∨ ∃ c, lineTerm c = true ∧ (c :: t) <:+ s

theorem testedPos_cons {b : Bool} {c : Char} {s' t : List Char}
    (h : testedPos (lineTerm c) s' t) : testedPos b (c :: s') t := by
  rcases h with ⟨hb, ht⟩ | ⟨c', hc', hsuf⟩
  · subst ht; exact Or.inr ⟨c, hb, List.suffix_refl _⟩
  · exact Or.inr ⟨c', hc', hsuf.trans (List.suffix_cons c s')⟩

theorem scanP_nil {α : Type} (f : List Char → Option α) (b : Bool) :
    scanP f b [] = if b then (f []).map (fun a => (0, a)) else none := rfl

theorem scanP_cons {α : Type} (f : List Char → Option α) (b : Bool) (c : Char)
    (s' : List Char) :
    scanP f b (c :: s') =
      match (if b then f (c :: s') else none) with
      | some a => some (0, a)
      | none => (scanP f (lineTerm c) s').map (fun pa => (pa.1 + 1, pa.2)) := rfl

theorem scanP_none_iff {α : Type} (f : List Char → Option α) :
    ∀ (s : List Char) (b : Bool),
      scanP f b s = none ↔ ∀ t, testedPos b s t → f t = none := by
  intro s
  induction s with
  | nil =>
    intro b
    constructor
    · intro h t ht
      rcases ht with ⟨hb, ht⟩ | ⟨c, _, hsuf⟩
      · subst hb; subst ht
        rw [scanP_nil, if_pos rfl, Option.map_eq_none'] at h
        exact h
      · exact absurd (List.suffix_nil.mp hsuf) (List.cons_ne_nil c t)
    · intro h
      cases b with
      | false => rfl
      | true =>
        rw [scanP_nil, if_pos rfl, Option.map_eq_none']
        exact h [] (Or.inl ⟨rfl, rfl⟩)
  | cons c s' ih =>
    intro b
    rw [scanP_cons]
    cases hfb : (if b then f (c :: s') else none) with
    | some a =>
      simp only []
      constructor
      · intro h; exact absurd h (by simp)
      · intro h
        exfalso
        cases b with
        | false => simp at hfb
        | true =>
          rw [if_pos rfl] at hfb
          rw [h (c :: s') (Or.inl ⟨rfl, rfl⟩)] at hfb
          exact Option.noConfusion hfb
    | none =>
      simp only [Option.map_eq_none']
      rw [ih (lineTerm c)]
      constructor
      · intro h t ht
        rcases ht with ⟨hb, ht⟩ | ⟨c', hc', hsuf⟩
        · subst hb; subst ht
          rw [if_pos rfl] at hfb; exact hfb
        · rcases List.suffix_cons_iff.mp hsuf with heq | hsuf'
          · have hc : c' = c := by injection heq
            have ht : t = s' := by injection heq
            exact h t (Or.inl ⟨hc ▸ hc', ht⟩)
          · exact h t (Or.inr ⟨c', hc', hsuf'⟩)
      · intro h t ht
        exact h t (testedPos_cons ht)

theorem scanP_some {α : Type} (f : List Char → Option α) :
    ∀ (s : List Char) (b : Bool) (p : Nat) (a : α),
      scanP f b s = some (p, a) →
      f (s.drop p) = some a ∧ testedPos b s (s.drop p) ∧ p ≤ s.length := by
  intro s
  induction s with
  | nil =>
    intro b p a h
    cases b with
    | false => exact absurd h (by simp [scanP_nil])
    | true =>
      rw [scanP_nil, if_pos rfl] at h
      rcases Option.map_eq_some'.mp h with ⟨a', ha', heq⟩
      have hp : p = 0 := by
        have := congrArg Prod.fst heq; simpa using this.symm
      have ha : a' = a := by
        have := congrArg Prod.snd heq; simpa using this
      subst hp; subst ha
      exact ⟨ha', Or.inl ⟨rfl, rfl⟩, by simp⟩
  | cons c s' ih =>
    intro b p a h
    rw [scanP_cons] at h
    cases hfb : (if b then f (c :: s') else none) with
    | some a' =>
      rw [hfb] at h
      simp only [Option.some.injEq, Prod.mk.injEq] at h
      obtain ⟨hp, ha⟩ := h
      subst hp; subst ha
      have hb : b = true := by
        cases b with
        | false => simp at hfb
        | true => rfl
      subst hb
      rw [if_pos rfl] at hfb
      exact ⟨hfb, Or.inl ⟨rfl, rfl⟩, by simp⟩
    | none =>
      rw [hfb] at h
      simp only [] at h
      rcases Option.map_eq_some'.mp h with ⟨⟨p', a'⟩, hrec, heq⟩
      have hp : p = p' + 1 := by
        have := congrArg Prod.fst heq; simpa using this.symm
      have ha : a' = a := by
        have := congrArg Prod.snd heq; simpa using this
      subst hp; subst ha
      obtain ⟨h1, h2, h3⟩ := ih (lineTerm c) p' a' hrec
      exact ⟨h1, testedPos_cons h2, by simpa using Nat.succ_le_succ h3⟩

theorem scanP_cons_false {α : Type} (f : List Char → Option α) (c : Char) (s' : List Char) :
    scanP f false (c :: s') = (scanP f (lineTerm c) s').map (fun pa => (pa.1 + 1, pa.2)) :=
  rfl

theorem scanP_cons_none {α : Type} (f : List Char → Option α) (c : Char) (s' : List Char)
    (hf : f (c :: s') = none) :
    scanP f true (c :: s') = (scanP f (lineTerm c) s').map (fun pa => (pa.1 + 1, pa.2)) := by
  rw [scanP_cons, if_pos rfl, hf]

theorem scanP_cons_some {α : Type} (f : List Char → Option α) (c : Char) (s' : List Char)
    (a : α) (hf : f (c :: s') = some a) :
    scanP f true (c :: s') = some (0, a) := by
  rw [scanP_cons, if_pos rfl, hf]

theorem optMap_fst_shift {γ : Type} (o : Option (Nat × γ)) :
    (o.map (fun pa => (pa.1 + 1, pa.2))).map Prod.fst
      = (o.map Prod.fst).map (fun n => n + 1) := by
  cases o <;> rfl

theorem scanP_congr {α β : Type} (f : List Char → Option α) (g : List Char → Option β) :
    ∀ (s : List Char) (b : Bool),
      (∀ t, testedPos b s t → ((f t).isSome ↔ (g t).isSome)) →
      (scanP f b s).map Prod.fst = (scanP g b s).map Prod.fst := by
  intro s
  induction s with
  | nil =>
    intro b h
    cases b with
    | false => rfl
    | true =>
      rw [scanP_nil, scanP_nil, if_pos rfl, if_pos rfl]
      have hiff := h [] (Or.inl ⟨rfl, rfl⟩)
      cases hf : f [] with
      | none =>
        cases hg : g [] with
        | none => rfl
        | some y => rw [hf, hg] at hiff; simp at hiff
      | some x =>
        cases hg : g [] with
        | none => rw [hf, hg] at hiff; simp at hiff
        | some y => rfl
  | cons c s' ih =>
    intro b h
    have hrec : (scanP f (lineTerm c) s').map Prod.fst
        = (scanP g (lineTerm c) s').map Prod.fst :=
      ih (lineTerm c) (fun t ht => h t (testedPos_cons ht))
    cases b with
    | false =>
      rw [scanP_cons_false, scanP_cons_false, optMap_fst_shift, optMap_fst_shift, hrec]
    | true =>
      have hiff := h (c :: s') (Or.inl ⟨rfl, rfl⟩)
      cases hf : f (c :: s') with
      | none =>
        cases hg : g (c :: s') with
        | none =>
          rw [scanP_cons_none f c s' hf, scanP_cons_none g c s' hg,
            optMap_fst_shift, optMap_fst_shift, hrec]
        | some y => rw [hf, hg] at hiff; simp at hiff
      | some x =>
        cases hg : g (c :: s') with
        | none => rw [hf, hg] at hiff; simp at hiff
        | some y => rw [scanP_cons_some f c s' x hf, scanP_cons_some g c s' y hg]; rfl

theorem linesOf_head (md : List Char) : ∃ ts, linesOf md = lineOf md :: ts := by
  induction md with
  | nil => exact ⟨[], rfl⟩
  | cons c rest ih =>
    by_cases hc : lineTerm c = true
    · refine ⟨linesOf rest, ?_⟩
      simp [linesOf, hc, lineOf, List.takeWhile_cons]
    · obtain ⟨ts, hts⟩ := ih
      refine ⟨ts, ?_⟩
      have hb : lineTerm c = false := Bool.eq_false_iff.mpr hc
      simp [linesOf, hb, hts, lineOf, List.takeWhile_cons]

theorem lineOf_mem_tail (md : List Char) :
    ∀ t c, lineTerm c = true → (c :: t) <:+ md → lineOf t ∈ (linesOf md).tail := by
  induction md with
  | nil =>
    intro t c _ hsuf
    exact absurd (List.suffix_nil.mp hsuf) (List.cons_ne_nil c t)
  | cons d rest ih =>
    intro t c hc hsuf
    rcases List.suffix_cons_iff.mp hsuf with heq | hsuf'
    · have hcd : c = d := by injection heq
      have ht : t = rest := by injection heq
      subst hcd; subst ht
      rw [show linesOf (c :: t) = [] :: linesOf t from by simp [linesOf, hc]]
      obtain ⟨ts, hts⟩ := linesOf_head t
      simp [hts]
    · have hmem := ih t c hc hsuf'
      by_cases hd : lineTerm d = true
      · rw [show linesOf (d :: rest) = [] :: linesOf rest from by simp [linesOf, hd]]
        obtain ⟨ts, hts⟩ := linesOf_head rest
        rw [hts] at hmem ⊢
        exact List.mem_cons_of_mem _ hmem
      · obtain ⟨ts, hts⟩ := linesOf_head rest
        have hb : lineTerm d = false := Bool.eq_false_iff.mpr hd
        rw [show linesOf (d :: rest) = (d :: lineOf rest) :: ts from by
          simp [linesOf, hb, hts]]
        rw [hts] at hmem
        exact hmem

theorem lineOf_mem (md t : List Char) (ht : testedPos true md t) :
    lineOf t ∈ linesOf md := by
  rcases ht with ⟨_, rfl⟩ | ⟨c, hc, hsuf⟩
  · obtain ⟨ts, hts⟩ := linesOf_head t
    rw [hts]; exact List.mem_cons_self _ _
  · have := lineOf_mem_tail md t c hc hsuf
    obtain ⟨ts, hts⟩ := linesOf_head md
    rw [hts] at this ⊢
    exact List.mem_cons_of_mem _ this

theorem exists_tested_of_mem_tail (md : List Char) :
    ∀ l ∈ (linesOf md).tail,
      ∃ t c, lineTerm c = true ∧ (c :: t) <:+ md ∧ lineOf t = l := by
  induction md with
  | nil => intro l hl; simp [linesOf] at hl
  | cons d rest ih =>
    intro l hl
    by_cases hd : lineTerm d = true
    · rw [show linesOf (d :: rest) = [] :: linesOf rest from by simp [linesOf, hd]] at hl
      obtain ⟨ts, hts⟩ := linesOf_head rest
      rw [hts] at hl
      rcases List.mem_cons.mp hl with hl | hl
      · exact ⟨rest, d, hd, List.suffix_refl _, hl ▸ rfl⟩
      · obtain ⟨t, c, hc, hsuf, hlt⟩ := ih l (by rw [hts]; exact hl)
        exact ⟨t, c, hc, hsuf.trans (List.suffix_cons d rest), hlt⟩
    · obtain ⟨ts, hts⟩ := linesOf_head rest
      have hb : lineTerm d = false := Bool.eq_false_iff.mpr hd
      rw [show linesOf (d :: rest) = (d :: lineOf rest) :: ts from by
        simp [linesOf, hb, hts]] at hl
      obtain ⟨t, c, hc, hsuf, hlt⟩ := ih l (by rw [hts]; exact hl)
      exact ⟨t, c, hc, hsuf.trans (List.suffix_cons d rest), hlt⟩

theorem exists_tested_of_mem (md : List Char) (l : List Char) (hl : l ∈ linesOf md) :
    ∃ t, testedPos true md t ∧ lineOf t = l := by
  obtain ⟨ts, hts⟩ := linesOf_head md
  rw [hts] at hl
  rcases List.mem_cons.mp hl with hl | hl
  · exact ⟨md, Or.inl ⟨rfl, rfl⟩, hl ▸ rfl⟩
  · obtain ⟨t, c, hc, hsuf, hlt⟩ := exists_tested_of_mem_tail md l (by rw [hts]; exact hl)
    exact ⟨t, Or.inr ⟨c, hc, hsuf⟩, hlt⟩

theorem not_hashWsOnly_of_tested {md t : List Char} (hmd : noHashWsLines md = true)
    (ht : testedPos true md t) : hashWsOnly (lineOf t) = false := by
  have hmem := lineOf_mem md t ht
  have := List.all_eq_true.mp hmd _ hmem
  simpa using this

/-! ### Facts about takeWhile runs and the backtracking matchers -/

theorem all_take_of_le_takeWhile {p : Char → Bool} :
    ∀ (l : List Char) (k : Nat), k ≤ (l.takeWhile p).length →
      ∀ c ∈ l.take k, p c = true := by
  intro l
  induction l with
  | nil => intro k _ c hc; simp at hc
  | cons d rest ih =>
    intro k hk c hc
    cases k with
    | zero => simp at hc
    | succ m =>
      by_cases hd : p d = true
      · rw [List.takeWhile_cons, if_pos hd] at hk
        simp only [List.length_cons, Nat.succ_le_succ_iff] at hk
        rw [List.take_succ_cons] at hc
        rcases List.mem_cons.mp hc with hc | hc
        · subst hc; exact hd
        · exact ih m hk c hc
      · rw [List.takeWhile_cons, if_neg hd] at hk
        simp at hk

theorem le_takeWhile_of_all_take {p : Char → Bool} :
    ∀ (l : List Char) (k : Nat), k ≤ l.length →
      (∀ c ∈ l.take k, p c = true) → k ≤ (l.takeWhile p).length := by
  intro l
  induction l with
  | nil => intro k hk _; simpa using hk
  | cons d rest ih =>
    intro k hk hall
    cases k with
    | zero => simp
    | succ m =>
      have hd : p d = true := hall d (by simp [List.take_succ_cons])
      rw [List.takeWhile_cons, if_pos hd]
      simp only [List.length_cons, Nat.succ_le_succ_iff]
      refine ih m (by simpa using hk) ?_
      intro c hc
      exact hall c (by simp [List.take_succ_cons, hc])

theorem takeWhile_drop_comm {p : Char → Bool} :
    ∀ (l : List Char) (n : Nat), n ≤ (l.takeWhile p).length →
      (l.takeWhile p).drop n = (l.drop n).takeWhile p := by
  intro l
  induction l with
  | nil => intro n _; simp
  | cons d rest ih =>
    intro n hn
    cases n with
    | zero => simp
    | succ m =>
      by_cases hd : p d = true
      · rw [List.takeWhile_cons, if_pos hd] at hn ⊢
        simp only [List.length_cons, Nat.succ_le_succ_iff] at hn
        rw [List.drop_succ_cons, List.drop_succ_cons]
        exact ih m hn
      · rw [List.takeWhile_cons, if_neg hd] at hn
        simp at hn

theorem eol_drop_lineOf : ∀ t : List Char, eol (t.drop (lineOf t).length) = true := by
  intro t
  induction t with
  | nil => rfl
  | cons c rest ih =>
    by_cases hc : lineTerm c = true
    · have : lineOf (c :: rest) = [] := by
        simp [lineOf, List.takeWhile_cons, hc]
      rw [this]
      simpa [eol] using hc
    · have hb : (!lineTerm c) = true := by simp [Bool.eq_false_iff.mpr hc]
      have : lineOf (c :: rest) = c :: lineOf rest := by
        simp [lineOf, List.takeWhile_cons, hb]
      rw [this, List.length_cons, List.drop_succ_cons]
      exact ih

theorem lineOf_length_le_of_eol :
    ∀ (t : List Char) (n : Nat), eol (t.drop n) = true → (lineOf t).length ≤ n := by
  intro t
  induction t with
  | nil => intro n _; simp [lineOf]
  | cons c rest ih =>
    intro n hn
    cases n with
    | zero =>
      simp only [List.drop_zero, eol] at hn
      have : lineOf (c :: rest) = [] := by
        simp [lineOf, List.takeWhile_cons, hn]
      simp [this]
    | succ m =>
      by_cases hc : lineTerm c = true
      · have : lineOf (c :: rest) = [] := by
          simp [lineOf, List.takeWhile_cons, hc]
        simp [this]
      · have hb : (!lineTerm c) = true := by simp [Bool.eq_false_iff.mpr hc]
        have : lineOf (c :: rest) = c :: lineOf rest := by
          simp [lineOf, List.takeWhile_cons, hb]
        rw [this, List.length_cons]
        rw [List.drop_succ_cons] at hn
        exact Nat.succ_le_succ (ih m hn)

theorem pfx_drop {l₁ l₂ : List Char} (h : l₁ <+: l₂) (n : Nat) (hn : n ≤ l₁.length) :
    l₁.drop n <+: l₂.drop n := by
  obtain ⟨r, rfl⟩ := h
  rw [List.drop_append_of_le_length hn]
  exact ⟨r, rfl⟩

theorem tryJ_eq_some {s₂ : List Char} :
    ∀ {n j : Nat}, tryJ s₂ n = some j → j ≤ n ∧ eol (s₂.drop j) = true := by
  intro n
  induction n with
  | zero =>
    intro j h
    simp only [tryJ] at h
    split at h
    · obtain rfl : (0 : Nat) = j := by injection h
      exact ⟨Nat.le_refl 0, by simpa using ‹eol s₂ = true›⟩
    · exact absurd h (by simp)
  | succ m ih =>
    intro j h
    simp only [tryJ] at h
    split at h
    · obtain rfl : m + 1 = j := by injection h
      exact ⟨Nat.le_refl _, ‹eol (s₂.drop (m + 1)) = true›⟩
    · obtain ⟨h1, h2⟩ := ih h
      exact ⟨Nat.le_succ_of_le h1, h2⟩

theorem tryJ_isSome {s₂ : List Char} :
    ∀ {n j : Nat}, j ≤ n → eol (s₂.drop j) = true → (tryJ s₂ n).isSome = true := by
  intro n
  induction n with
  | zero =>
    intro j hj he
    obtain rfl : j = 0 := Nat.le_zero.mp hj
    simp only [tryJ]
    rw [if_pos (by simpa using he)]
    rfl
  | succ m ih =>
    intro j hj he
    simp only [tryJ]
    split
    · rfl
    · rcases Nat.lt_or_ge j (m + 1) with hlt | hge
      · exact ih (Nat.lt_succ_iff.mp hlt) he
      · obtain rfl : j = m + 1 := Nat.le_antisymm hj hge
        exact absurd he (by simpa using ‹¬eol (s₂.drop (m + 1)) = true›)

theorem tryK_eq_some {L s₁ : List Char} :
    ∀ {n len : Nat}, tryK L s₁ n = some len →
      ∃ k, 1 ≤ k ∧ k ≤ n ∧ L.isPrefixOf (s₁.drop k) = true ∧
        ∃ j, j ≤ wsRun ((s₁.drop k).drop L.length) ∧
          eol (((s₁.drop k).drop L.length).drop j) = true ∧
          len = 2 + k + L.length + j := by
  intro n
  induction n with
  | zero => intro len h; exact absurd h (by simp [tryK])
  | succ m ih =>
    intro len h
    simp only [tryK] at h
    by_cases hp : L.isPrefixOf (s₁.drop (m + 1)) = true
    · rw [if_pos hp] at h
      cases htj : tryJ ((s₁.drop (m + 1)).drop L.length)
          (wsRun ((s₁.drop (m + 1)).drop L.length)) with
      | some j =>
        rw [htj] at h
        obtain rfl : 2 + (m + 1) + L.length + j = len := by injection h
        obtain ⟨hj1, hj2⟩ := tryJ_eq_some htj
        exact ⟨m + 1, Nat.succ_le_succ (Nat.zero_le m), Nat.le_refl _, hp,
          j, hj1, hj2, rfl⟩
      | none =>
        rw [htj] at h
        obtain ⟨k, h1, h2, h3, hj⟩ := ih h
        exact ⟨k, h1, Nat.le_succ_of_le h2, h3, hj⟩
    · rw [if_neg hp] at h
      obtain ⟨k, h1, h2, h3, hj⟩ := ih h
      exact ⟨k, h1, Nat.le_succ_of_le h2, h3, hj⟩

theorem tryK_isSome {L s₁ : List Char} :
    ∀ {n k : Nat}, 1 ≤ k → k ≤ n → L.isPrefixOf (s₁.drop k) = true →
      (∃ j, j ≤ wsRun ((s₁.drop k).drop L.length) ∧
        eol (((s₁.drop k).drop L.length).drop j) = true) →
      (tryK L s₁ n).isSome = true := by
  intro n
  induction n with
  | zero =>
    intro k h1 hk _ _
    exact absurd (Nat.le_trans h1 hk) (by simp)
  | succ m ih =>
    intro k h1 hk hp hex
    simp only [tryK]
    by_cases hp' : L.isPrefixOf (s₁.drop (m + 1)) = true
    · rw [if_pos hp']
      cases htj : tryJ ((s₁.drop (m + 1)).drop L.length)
          (wsRun ((s₁.drop (m + 1)).drop L.length)) with
      | some j => rfl
      | none =>
        rcases Nat.lt_or_ge k (m + 1) with hlt | hge
        · exact ih h1 (Nat.lt_succ_iff.mp hlt) hp hex
        · obtain rfl : k = m + 1 := Nat.le_antisymm hk hge
          obtain ⟨j, hj1, hj2⟩ := hex
          have := tryJ_isSome hj1 hj2
          rw [htj] at this
          simp at this
    · rw [if_neg hp']
      rcases Nat.lt_or_ge k (m + 1) with hlt | hge
      · exact ih h1 (Nat.lt_succ_iff.mp hlt) hp hex
      · obtain rfl : k = m + 1 := Nat.le_antisymm hk hge
        exact absurd hp hp'

theorem hlTry_iff {L r : List Char} :
    ∀ {n : Nat}, hlTry L r n = true ↔
      ∃ k, 1 ≤ k ∧ k ≤ n ∧ L.isPrefixOf (r.drop k) = true ∧
        ((r.drop k).drop L.length).all inlineWs = true := by
  intro n
  induction n with
  | zero =>
    simp only [hlTry]
    constructor
    · intro h; exact absurd h (by simp)
    · rintro ⟨k, h1, hk, -, -⟩
      exact absurd (Nat.le_trans h1 hk) (by simp)
  | succ m ih =>
    simp only [hlTry, Bool.or_eq_true, Bool.and_eq_true]
    constructor
    · rintro (⟨hp, hall⟩ | h)
      · exact ⟨m + 1, Nat.succ_le_succ (Nat.zero_le m), Nat.le_refl _, hp, hall⟩
      · obtain ⟨k, h1, h2, h3, h4⟩ := ih.mp h
        exact ⟨k, h1, Nat.le_succ_of_le h2, h3, h4⟩
    · rintro ⟨k, h1, hk, hp, hall⟩
      rcases Nat.lt_or_ge k (m + 1) with hlt | hge
      · exact Or.inr (ih.mpr ⟨k, h1, Nat.lt_succ_iff.mp hlt, hp, hall⟩)
      · obtain rfl : k = m + 1 := Nat.le_antisymm hk hge
        exact Or.inl ⟨hp, hall⟩

theorem takeWhile_take_eq {p : Char → Bool} :
    ∀ (l : List Char) (k : Nat), k ≤ (l.takeWhile p).length →
      (l.takeWhile p).take k = l.take k := by
  intro l
  induction l with
  | nil => intro k _; simp
  | cons d rest ih =>
    intro k hk
    cases k with
    | zero => simp
    | succ m =>
      by_cases hd : p d = true
      · rw [List.takeWhile_cons, if_pos hd] at hk ⊢
        simp only [List.length_cons, Nat.succ_le_succ_iff] at hk
        rw [List.take_succ_cons, List.take_succ_cons, ih m hk]
      · rw [List.takeWhile_cons, if_neg hd] at hk
        simp at hk

theorem pfx_takeWhile {p : Char → Bool} :
    ∀ (L x : List Char), L <+: x → L.all p = true → L <+: x.takeWhile p := by
  intro L
  induction L with
  | nil => intro x _ _; exact List.nil_prefix
  | cons a L' ih =>
    intro x h hall
    obtain ⟨r, rfl⟩ := h
    rw [List.all_cons, Bool.and_eq_true] at hall
    rw [List.cons_append, List.takeWhile_cons, if_pos hall.1]
    exact List.cons_prefix_cons.mpr ⟨rfl, ih (L' ++ r) (List.prefix_append L' r) hall.2⟩

theorem lineOf_pfx (l : List Char) : lineOf l <+: l := List.takeWhile_prefix _

theorem lineOf_drop_comm (l : List Char) (n : Nat) (hn : n ≤ (lineOf l).length) :
    (lineOf l).drop n = lineOf (l.drop n) := takeWhile_drop_comm l n hn

theorem lineOf_take_eq (l : List Char) (k : Nat) (hk : k ≤ (lineOf l).length) :
    (lineOf l).take k = l.take k := takeWhile_take_eq l k hk

theorem mem_lineOf_not_term {l : List Char} {c : Char} (h : c ∈ lineOf l) :
    lineTerm c = false := by
  have := List.mem_takeWhile_imp h
  simpa using this

/-- Shape analysis: either a suffix starts with the marker '##' (and its line
starts with '##' as well), or neither the suffix nor its line does. -/
theorem lineOf_shape (t : List Char) :
    (∃ s₁, t = '#' :: '#' :: s₁ ∧
      lineOf t = '#' :: '#' :: s₁.takeWhile (fun c => !lineTerm c))
    ∨ ((∀ s₁, t ≠ '#' :: '#' :: s₁) ∧ ∀ r, lineOf t ≠ '#' :: '#' :: r) := by
  have hhash : (!lineTerm '#') = true := by decide
  rcases t with _ | ⟨c1, t1⟩
  · right
    refine ⟨fun s₁ h => List.noConfusion h, fun r h => ?_⟩
    simp [lineOf] at h
  rcases t1 with _ | ⟨c2, s₁⟩
  · right
    constructor
    · intro s₁ h
      injection h with _ h2
      exact List.noConfusion h2
    · intro r h
      have hle : (lineOf [c1]).length ≤ 1 := (lineOf_pfx [c1]).length_le
      rw [h] at hle
      simp at hle
  · by_cases h1 : c1 = '#'
    · by_cases h2 : c2 = '#'
      · subst h1; subst h2
        left
        refine ⟨s₁, rfl, ?_⟩
        simp [lineOf, List.takeWhile_cons, hhash]
      · right
        subst h1
        constructor
        · intro s₁' h
          injection h with _ h2'
          injection h2' with h2'' _
          exact h2 h2''
        · intro r h
          rw [show lineOf ('#' :: c2 :: s₁)
              = '#' :: (c2 :: s₁).takeWhile (fun c => !lineTerm c) from by
            simp [lineOf, List.takeWhile_cons, hhash]] at h
          injection h with _ h2'
          by_cases hc2 : (!lineTerm c2) = true
          · rw [List.takeWhile_cons, if_pos hc2] at h2'
            injection h2' with h2'' _
            exact h2 h2''
          · rw [List.takeWhile_cons, if_neg hc2] at h2'
            exact List.noConfusion h2'
    · right
      constructor
      · intro s₁' h
        injection h with h1' _
        exact h1 h1'
      · intro r h
        by_cases hc1 : (!lineTerm c1) = true
        · rw [show lineOf (c1 :: c2 :: s₁)
              = c1 :: (c2 :: s₁).takeWhile (fun c => !lineTerm c) from by
            simp [lineOf, List.takeWhile_cons, hc1]] at h
          injection h with h1' _
          exact h1 h1'
        · rw [show lineOf (c1 :: c2 :: s₁) = [] from by
            simp [lineOf, List.takeWhile_cons, hc1]] at h
          exact List.noConfusion h

/-- Core of the heading-matcher equivalence: on a suffix `'#' :: '#' :: s₁`
whose line is not '##'-plus-whitespace-only, the backtracking regex match
succeeds iff the line is a heading line for `L`. -/
theorem matchRe1_core (L s₁ : List Char)
    (hws : (lineOf s₁).all jsWs = false)
    (hL : L.all (fun c => !lineTerm c) = true) :
    (tryK L s₁ (wsRun s₁)).isSome = true ↔
      hlTry L (lineOf s₁) (((lineOf s₁).takeWhile inlineWs).length) = true := by
  have hrun : wsRun s₁ ≤ (lineOf s₁).length := by
    by_contra hgt
    push_neg at hgt
    have h1 : ∀ c ∈ s₁.take (lineOf s₁).length, jsWs c = true :=
      all_take_of_le_takeWhile s₁ _ (Nat.le_of_lt hgt)
    have h2 : lineOf s₁ = s₁.take (lineOf s₁).length :=
      List.prefix_iff_eq_take.mp (lineOf_pfx s₁)
    have : (lineOf s₁).all jsWs = true :=
      List.all_eq_true.mpr (fun c hc => h1 c (h2 ▸ hc))
    rw [this] at hws
    exact Bool.noConfusion hws
  constructor
  · intro hsome
    obtain ⟨len, hlen⟩ := Option.isSome_iff_exists.mp hsome
    obtain ⟨k, hk1, hk2, hkpre, j, hj1, hj2, -⟩ := tryK_eq_some hlen
    have hkrL : k ≤ (lineOf s₁).length := Nat.le_trans hk2 hrun
    have htk : (lineOf s₁).take k = s₁.take k := lineOf_take_eq s₁ k hkrL
    have hLpre : L <+: s₁.drop k := List.isPrefixOf_iff_prefix.mp hkpre
    have hdropk : (lineOf s₁).drop k = lineOf (s₁.drop k) := lineOf_drop_comm s₁ k hkrL
    have hLpre2 : L <+: lineOf (s₁.drop k) := pfx_takeWhile L _ hLpre hL
    have hLlen : L.length ≤ (lineOf (s₁.drop k)).length := hLpre2.length_le
    have hdropL : (lineOf (s₁.drop k)).drop L.length
        = lineOf ((s₁.drop k).drop L.length) :=
      lineOf_drop_comm (s₁.drop k) L.length hLlen
    have hwlen : (lineOf ((s₁.drop k).drop L.length)).length ≤ j :=
      lineOf_length_le_of_eol _ j hj2
    have hrem : (((lineOf s₁).drop k).drop L.length).all inlineWs = true := by
      rw [hdropk, hdropL]
      refine List.all_eq_true.mpr ?_
      intro c hc
      have hnt : lineTerm c = false := mem_lineOf_not_term hc
      have hcmem : c ∈ ((s₁.drop k).drop L.length).take
          (lineOf ((s₁.drop k).drop L.length)).length := by
        rw [← List.prefix_iff_eq_take.mp (lineOf_pfx _)]
        exact hc
      have hcws : jsWs c = true :=
        all_take_of_le_takeWhile _ _ (Nat.le_trans hwlen hj1) c hcmem
      simp [inlineWs, hcws, hnt]
    have hkin : k ≤ ((lineOf s₁).takeWhile inlineWs).length := by
      refine le_takeWhile_of_all_take _ k hkrL ?_
      intro c hc
      have hcs : c ∈ s₁.take k := by rw [← htk]; exact hc
      have hws' : jsWs c = true := all_take_of_le_takeWhile s₁ k hk2 c hcs
      have hnt : lineTerm c = false :=
        mem_lineOf_not_term (List.take_subset k _ hc)
      simp [inlineWs, hws', hnt]
    refine hlTry_iff.mpr ⟨k, hk1, hkin, ?_, hrem⟩
    refine List.isPrefixOf_iff_prefix.mpr ?_
    rw [hdropk]
    exact hLpre2
  · intro hhl
    obtain ⟨k, hk1, hkin, hkpre, hkall⟩ := hlTry_iff.mp hhl
    have hkrL : k ≤ (lineOf s₁).length :=
      Nat.le_trans hkin (List.takeWhile_prefix _).length_le
    have htk : (lineOf s₁).take k = s₁.take k := lineOf_take_eq s₁ k hkrL
    have hdropk : (lineOf s₁).drop k = lineOf (s₁.drop k) := lineOf_drop_comm s₁ k hkrL
    have hLpre2 : L <+: lineOf (s₁.drop k) := by
      rw [← hdropk]
      exact List.isPrefixOf_iff_prefix.mp hkpre
    have hLlen : L.length ≤ (lineOf (s₁.drop k)).length := hLpre2.length_le
    have hdropL : (lineOf (s₁.drop k)).drop L.length
        = lineOf ((s₁.drop k).drop L.length) :=
      lineOf_drop_comm (s₁.drop k) L.length hLlen
    have hkall' : (lineOf ((s₁.drop k).drop L.length)).all inlineWs = true := by
      rw [← hdropL, ← hdropk]
      exact hkall
    refine tryK_isSome hk1 ?_ ?_ ?_
    · refine le_takeWhile_of_all_take s₁ k
        (Nat.le_trans hkrL (lineOf_pfx s₁).length_le) ?_
      intro c hc
      have hc' : c ∈ (lineOf s₁).take k := by rw [htk]; exact hc
      have hin : inlineWs c = true := all_take_of_le_takeWhile _ k hkin c hc'
      rw [inlineWs, Bool.and_eq_true] at hin
      exact hin.1
    · exact List.isPrefixOf_iff_prefix.mpr (hLpre2.trans (lineOf_pfx _))
    · refine ⟨(lineOf ((s₁.drop k).drop L.length)).length, ?_, eol_drop_lineOf _⟩
      refine le_takeWhile_of_all_take _ _ (lineOf_pfx _).length_le ?_
      intro c hc
      have hc' : c ∈ lineOf ((s₁.drop k).drop L.length) := by
        rw [List.prefix_iff_eq_take.mp (lineOf_pfx _)]
        exact hc
      have hin : inlineWs c = true := List.all_eq_true.mp hkall' c hc'
      rw [inlineWs, Bool.and_eq_true] at hin
      exact hin.1

/-- Heading-matcher equivalence: at a position whose line is not
'##'-plus-whitespace-only, the regex `^##\s+L\s*$` matches iff the line at
that position is a heading line for `L` (where `L` holds no terminator). -/
theorem matchRe1_iff_heading {L t : List Char}
    (ht : hashWsOnly (lineOf t) = false)
    (hL : L.all (fun c => !lineTerm c) = true) :
    (matchRe1 L t).isSome = true ↔ isHeadingLine L (lineOf t) = true := by
  rcases lineOf_shape t with ⟨s₁, rfl, hline⟩ | ⟨hne, hlne⟩
  · rw [hline] at ht ⊢
    have hm : matchRe1 L ('#' :: '#' :: s₁) = tryK L s₁ (wsRun s₁) := by
      simp [matchRe1]
    have hws : (lineOf s₁).all jsWs = false := by
      simpa [hashWsOnly, lineOf] using ht
    have hh : isHeadingLine L ('#' :: '#' :: s₁.takeWhile (fun c => !lineTerm c))
        = hlTry L (lineOf s₁) (((lineOf s₁).takeWhile inlineWs).length) := by
      simp [isHeadingLine, lineOf]
    rw [hm, hh]
    exact matchRe1_core L s₁ hws hL
  · have hm : matchRe1 L t = none := by
      rcases t with _ | ⟨c1, t1⟩
      · rfl
      rcases t1 with _ | ⟨c2, s₁⟩
      · rfl
      · simp only [matchRe1]
        rw [if_neg]
        rintro ⟨e1, e2⟩
        exact hne s₁ (by rw [e1, e2])
    have hh : isHeadingLine L (lineOf t) = false := by
      cases hlof : lineOf t with
      | nil => simp [isHeadingLine]
      | cons d1 r1 =>
        cases r1 with
        | nil => simp [isHeadingLine]
        | cons d2 r =>
          by_cases e1 : d1 = '#'
          · by_cases e2 : d2 = '#'
            · exact absurd (by rw [hlof, e1, e2]) (hlne r)
            · simp [isHeadingLine, e2]
          · simp [isHeadingLine, e1]
    rw [hm, hh]
    simp

/-- End-of-section matcher equivalence: at a position whose line is not
'##'-plus-whitespace-only, `^##\s+` matches iff the line starts with '##'
followed by (inline) whitespace. -/
theorem matchRe2_iff_nextHead {t : List Char} (ht : hashWsOnly (lineOf t) = false) :
    matchRe2 t = specNextHead t := by
  have hhash : (!lineTerm '#') = true := by decide
  rcases t with _ | ⟨c1, t1⟩
  · rfl
  rcases t1 with _ | ⟨c2, t2⟩
  · rfl
  rcases t2 with _ | ⟨c, t3⟩
  · rfl
  by_cases e1 : c1 = '#'
  · by_cases e2 : c2 = '#'
    · subst e1; subst e2
      by_cases hterm : lineTerm c = true
      · exfalso
        have hl : lineOf ('#' :: '#' :: c :: t3) = ['#', '#'] := by
          simp [lineOf, List.takeWhile_cons, hhash, hterm]
        rw [hl] at ht
        simp [hashWsOnly] at ht
      · have hterm' : lineTerm c = false := Bool.eq_false_iff.mpr hterm
        simp [matchRe2, specNextHead, inlineWs, hterm']
    · simp [matchRe2, specNextHead, e2]
  · simp [matchRe2, specNextHead, e1]

theorem scanP_flag_of_none {α : Type} (f : List Char → Option α) (s : List Char)
    (hf : f s = none) (b : Bool) : scanP f b s = scanP f true s := by
  cases s with
  | nil => cases b <;> simp [scanP_nil, hf]
  | cons c s' =>
    cases b with
    | true => rfl
    | false => rw [scanP_cons_false, scanP_cons_none f c s' hf]

/-- Scanning a string that begins with a whitespace run on which the matcher
fails: the scan result is the scan of the remainder, with positions shifted
by the length of the run. -/
theorem scanP_ws_pfx {α : Type} (f : List Char → Option α) (rest : List Char)
    (hrest : f rest = none) :
    ∀ (g : List Char) (b : Bool), (∀ c ∈ g, jsWs c = true) →
      (∀ g', g' <:+ g → g' ≠ [] → f (g' ++ rest) = none) →
      scanP f b (g ++ rest)
        = (scanP f true rest).map (fun pa => (pa.1 + g.length, pa.2)) := by
  intro g
  induction g with
  | nil =>
    intro b _ _
    rw [List.nil_append, scanP_flag_of_none f rest hrest b]
    cases scanP f true rest with
    | none => rfl
    | some pa => simp
  | cons w g' ih =>
    intro b hws hf
    have hfw : f ((w :: g') ++ rest) = none :=
      hf (w :: g') (List.suffix_refl _) (by simp)
    have step : scanP f b ((w :: g') ++ rest)
        = (scanP f (lineTerm w) (g' ++ rest)).map (fun pa => (pa.1 + 1, pa.2)) := by
      cases b with
      | false => exact scanP_cons_false f w (g' ++ rest)
      | true => exact scanP_cons_none f w (g' ++ rest) hfw
    rw [step, ih (lineTerm w) (fun c hc => hws c (by simp [hc]))
      (fun g'' hg hne => hf g'' (hg.trans (List.suffix_cons w g')) hne)]
    cases scanP f true rest with
    | none => rfl
    | some pa => simp [Nat.add_assoc]

theorem dropWhile_ws_append :
    ∀ (g x : List Char), (∀ c ∈ g, jsWs c = true) →
      (g ++ x).dropWhile jsWs = x.dropWhile jsWs := by
  intro g
  induction g with
  | nil => intro x _; rfl
  | cons w g' ih =>
    intro x hg
    rw [List.cons_append, List.dropWhile_cons, if_pos (hg w (by simp))]
    exact ih x (fun c hc => hg c (by simp [hc]))

/-- Trimming ignores a leading all-whitespace run. -/
theorem trim_ws_pfx (g x : List Char) (hg : ∀ c ∈ g, jsWs c = true) :
    trim (g ++ x) = trim x := by
  unfold trim
  rw [dropWhile_ws_append g x hg]

theorem specNextHead_ne_hash {c : Char} (hc : c ≠ '#') (x : List Char) :
    specNextHead (c :: x) = false := by
  rcases x with _ | ⟨c2, x2⟩
  · rfl
  rcases x2 with _ | ⟨c3, x3⟩
  · rfl
  · simp [specNextHead, hc]

theorem matchRe2_ne_hash {c : Char} (hc : c ≠ '#') (x : List Char) :
    matchRe2 (c :: x) = false := by
  rcases x with _ | ⟨c2, x2⟩
  · rfl
  rcases x2 with _ | ⟨c3, x3⟩
  · rfl
  · simp [matchRe2, hc]

theorem ne_hash_of_lineTerm {c : Char} (hc : lineTerm c = true) : c ≠ '#' :=
  ne_hash_of_jsWs (jsWs_of_lineTerm hc)

theorem nextHeadAt_of_eol {t : List Char} (ht : eol t = true) : nextHeadAt t = none := by
  cases t with
  | nil => rfl
  | cons c x =>
    have : lineTerm c = true := by simpa [eol] using ht
    simp [nextHeadAt, specNextHead_ne_hash (ne_hash_of_lineTerm this) x]

theorem re2At_of_eol {t : List Char} (ht : eol t = true) : re2At t = none := by
  cases t with
  | nil => rfl
  | cons c x =>
    have : lineTerm c = true := by simpa [eol] using ht
    simp [re2At, matchRe2_ne_hash (ne_hash_of_lineTerm this) x]

theorem label_mem_of_headingLine {L line : List Char} (h : isHeadingLine L line = true) :
    ∀ c ∈ L, c ∈ line := by
  cases line with
  | nil => simp [isHeadingLine] at h
  | cons d1 r1 =>
    cases r1 with
    | nil => simp [isHeadingLine] at h
    | cons d2 r =>
      simp only [isHeadingLine, Bool.and_eq_true] at h
      obtain ⟨-, hts⟩ := h
      obtain ⟨k, -, -, hpre, -⟩ := hlTry_iff.mp hts
      intro c hc
      have h1 : c ∈ r.drop k := (List.isPrefixOf_iff_prefix.mp hpre).subset hc
      have h2 : c ∈ r := List.drop_subset k r h1
      simp [h2]

theorem wsRun_le_lineOf {s₁ : List Char} (hws : (lineOf s₁).all jsWs = false) :
    wsRun s₁ ≤ (lineOf s₁).length := by
  by_contra hgt
  push_neg at hgt
  have h1 : ∀ c ∈ s₁.take (lineOf s₁).length, jsWs c = true :=
    all_take_of_le_takeWhile s₁ _ (Nat.le_of_lt hgt)
  have h2 : lineOf s₁ = s₁.take (lineOf s₁).length :=
    List.prefix_iff_eq_take.mp (lineOf_pfx s₁)
  have : (lineOf s₁).all jsWs = true :=
    List.all_eq_true.mpr (fun c hc => h1 c (h2 ▸ hc))
  rw [this] at hws
  exact Bool.noConfusion hws

theorem specSection_isSome_iff (md L : List Char) :
    (specSection md L).isSome = true ↔
      (linesOf md).any (fun l => isHeadingLine L l) = true := by
  constructor
  · intro h
    cases hscan : scanP (specHeadAt L) true md with
    | none => simp [specSection, hscan] at h
    | some pl =>
      obtain ⟨p, len⟩ := pl
      obtain ⟨hf, htst, -⟩ := scanP_some (specHeadAt L) md true p len hscan
      have hhead : isHeadingLine L (lineOf (md.drop p)) = true := by
        by_cases hcond : isHeadingLine L (lineOf (md.drop p)) = true
        · exact hcond
        · unfold specHeadAt at hf
          rw [if_neg hcond] at hf
          exact absurd hf (by simp)
      exact List.any_eq_true.mpr ⟨lineOf (md.drop p), lineOf_mem md _ htst, hhead⟩
  · intro h
    obtain ⟨l, hl, hhead⟩ := List.any_eq_true.mp h
    obtain ⟨t, htst, hlt⟩ := exists_tested_of_mem md l hl
    cases hscan : scanP (specHeadAt L) true md with
    | some pl =>
      obtain ⟨p, len⟩ := pl
      unfold specSection
      rw [hscan]
      rcases h2 : scanP nextHeadAt true (md.drop (p + len)) with _ | ⟨q, u⟩ <;> simp [h2]
    | none =>
      exfalso
      have hnone := (scanP_none_iff (specHeadAt L) md true).mp hscan t htst
      unfold specHeadAt at hnone
      rw [hlt, if_pos hhead] at hnone
      exact absurd hnone (by simp)

theorem extractSection_eq_spec (md L : List Char) (hmd : noHashWsLines md = true) :
    ∀ v, specSection md L = some v → extractSection md L = v := by
  intro v hv
  cases hscan : scanP (specHeadAt L) true md with
  | none => simp [specSection, hscan] at hv
  | some pl =>
    obtain ⟨p, lineLen⟩ := pl
    obtain ⟨hf1, htst1, hple⟩ := scanP_some (specHeadAt L) md true p lineLen hscan
    have hhead : isHeadingLine L (lineOf (md.drop p)) = true := by
      by_cases hcond : isHeadingLine L (lineOf (md.drop p)) = true
      · exact hcond
      · unfold specHeadAt at hf1
        rw [if_neg hcond] at hf1
        exact absurd hf1 (by simp)
    have hlenEq : lineLen = (lineOf (md.drop p)).length := by
      unfold specHeadAt at hf1
      rw [if_pos hhead] at hf1
      injection hf1 with h
      exact h.symm
    have hL2 : L.all (fun c => !lineTerm c) = true := by
      refine List.all_eq_true.mpr ?_
      intro c hc
      have h1 := label_mem_of_headingLine hhead c hc
      have h2 := mem_lineOf_not_term h1
      simp [h2]
    have hiff1 : ∀ t, testedPos true md t →
        ((matchRe1 L t).isSome = true ↔ (specHeadAt L t).isSome = true) := by
      intro t ht
      have hhw := not_hashWsOnly_of_tested hmd ht
      have hiff := matchRe1_iff_heading hhw hL2
      unfold specHeadAt
      by_cases hcond : isHeadingLine L (lineOf t) = true
      · simp [hcond, hiff]
      · have hcf : isHeadingLine L (lineOf t) = false := Bool.eq_false_iff.mpr hcond
        simp [hcf, hiff]
    have hcg := scanP_congr (matchRe1 L) (specHeadAt L) md true hiff1
    rw [hscan] at hcg
    obtain ⟨⟨p₀, lenC⟩, hscanC, hfst⟩ := Option.map_eq_some'.mp hcg
    rw [show p₀ = p from hfst] at hscanC
    obtain ⟨hf1c, -, -⟩ := scanP_some (matchRe1 L) md true p lenC hscanC
    rcases lineOf_shape (md.drop p) with ⟨s₁, ht₀, hline⟩ | ⟨-, hlne⟩
    · -- the heading position starts with '##'
      rw [ht₀] at hf1c
      simp [matchRe1] at hf1c
      obtain ⟨k, hk1, hk2, hkpre, j, hj1, hj2, hlenC⟩ := tryK_eq_some hf1c
      have hhw0 : hashWsOnly (lineOf (md.drop p)) = false :=
        not_hashWsOnly_of_tested hmd htst1
      rw [hline] at hhw0
      have hws : (lineOf s₁).all jsWs = false := by
        simpa [hashWsOnly, lineOf] using hhw0
      have hkrL : k ≤ (lineOf s₁).length := Nat.le_trans hk2 (wsRun_le_lineOf hws)
      have hLpre : L <+: s₁.drop k := List.isPrefixOf_iff_prefix.mp hkpre
      have hdropk : (lineOf s₁).drop k = lineOf (s₁.drop k) := lineOf_drop_comm s₁ k hkrL
      have hLpre2 : L <+: lineOf (s₁.drop k) := pfx_takeWhile L _ hLpre hL2
      have hALen : k + L.length ≤ (lineOf s₁).length := by
        have h1 : L.length ≤ (lineOf (s₁.drop k)).length := hLpre2.length_le
        have h2 : (lineOf (s₁.drop k)).length = (lineOf s₁).length - k := by
          rw [← hdropk, List.length_drop]
        omega
      have hjws : ∀ c ∈ ((s₁.drop k).drop L.length).take j, jsWs c = true :=
        all_take_of_le_takeWhile _ j hj1
      have hlineLen : lineLen = (lineOf s₁).length + 2 := by
        rw [hlenEq, hline]
        simp only [List.length_cons, lineOf]
      have hcollapse : ((s₁.drop k).drop L.length).drop j
          = s₁.drop (j + (L.length + k)) := by
        rw [List.drop_drop, List.drop_drop]
        congr 1
        omega
      have heolN2 : eol (s₁.drop (j + (L.length + k))) = true := by
        rw [← hcollapse]
        exact hj2
      have hN1le : (lineOf s₁).length ≤ j + (L.length + k) :=
        lineOf_length_le_of_eol s₁ _ heolN2
      have hN2le : j + (L.length + k) ≤ s₁.length := by
        have h1 : j ≤ ((s₁.drop k).drop L.length).length :=
          Nat.le_trans hj1 (List.takeWhile_prefix _).length_le
        rw [List.length_drop, List.length_drop] at h1
        have h2 : k + L.length ≤ s₁.length :=
          Nat.le_trans hALen (lineOf_pfx s₁).length_le
        omega
      have hbetween : md.drop (p + lineLen) = s₁.drop (lineOf s₁).length := by
        rw [← List.drop_drop, ht₀, hlineLen]
        rfl
      have hrest : md.drop (p + lenC) = s₁.drop (j + (L.length + k)) := by
        rw [← List.drop_drop, ht₀,
          show lenC = (j + (L.length + k)) + 2 from by omega]
        rfl
      have hsplit : s₁.drop (lineOf s₁).length
          = (s₁.drop (lineOf s₁).length).take
              ((j + (L.length + k)) - (lineOf s₁).length)
            ++ s₁.drop (j + (L.length + k)) := by
        conv_lhs => rw [← List.take_append_drop
          ((j + (L.length + k)) - (lineOf s₁).length) (s₁.drop (lineOf s₁).length)]
        congr 1
        rw [List.drop_drop]
        congr 1
        omega
      have hgapws : ∀ c ∈ (s₁.drop (lineOf s₁).length).take
          ((j + (L.length + k)) - (lineOf s₁).length), jsWs c = true := by
        intro c hc
        have hEq : (s₁.drop (lineOf s₁).length).take
            ((j + (L.length + k)) - (lineOf s₁).length)
            = (((s₁.drop k).drop L.length).take j).drop
                ((lineOf s₁).length - (L.length + k)) := by
          rw [List.drop_take j ((lineOf s₁).length - (L.length + k))
            ((s₁.drop k).drop L.length)]
          have h1 : ((s₁.drop k).drop L.length).drop ((lineOf s₁).length - (L.length + k))
              = s₁.drop (lineOf s₁).length := by
            rw [List.drop_drop, List.drop_drop]
            congr 1
            omega
          rw [h1]
          congr 1
          omega
        rw [hEq] at hc
        exact hjws c (List.drop_subset _ _ hc)
      have hgapLen : ((s₁.drop (lineOf s₁).length).take
          ((j + (L.length + k)) - (lineOf s₁).length)).length
          = (j + (L.length + k)) - (lineOf s₁).length := by
        rw [List.length_take, List.length_drop, Nat.min_eq_left (by omega)]
      have hfails : ∀ g', g' <:+ (s₁.drop (lineOf s₁).length).take
          ((j + (L.length + k)) - (lineOf s₁).length) → g' ≠ [] →
          nextHeadAt (g' ++ s₁.drop (j + (L.length + k))) = none := by
        intro g' hg' hne
        cases g' with
        | nil => exact absurd rfl hne
        | cons w g'' =>
          have hwws := hgapws w (hg'.subset (by simp))
          show nextHeadAt ((w :: g'') ++ _) = none
          rw [List.cons_append]
          simp [nextHeadAt, specNextHead_ne_hash (ne_hash_of_jsWs hwws) _]
      have hspec2 : scanP nextHeadAt true (md.drop (p + lineLen))
          = (scanP nextHeadAt true (s₁.drop (j + (L.length + k)))).map
              (fun pa => (pa.1 + ((j + (L.length + k)) - (lineOf s₁).length), pa.2)) := by
        have base := scanP_ws_pfx nextHeadAt (s₁.drop (j + (L.length + k)))
          (nextHeadAt_of_eol heolN2)
          ((s₁.drop (lineOf s₁).length).take ((j + (L.length + k)) - (lineOf s₁).length))
          true hgapws hfails
        rw [hgapLen] at base
        rw [hbetween, hsplit]
        exact base
      have hiff2 : ∀ t, testedPos true (s₁.drop (j + (L.length + k))) t →
          ((re2At t).isSome = true ↔ (nextHeadAt t).isSome = true) := by
        intro t ht
        rcases ht with ⟨-, rfl⟩ | ⟨c, hc, hsuf⟩
        · rw [re2At_of_eol heolN2, nextHeadAt_of_eol heolN2]
        · have hsufmd : (c :: t) <:+ md := by
            refine hsuf.trans ?_
            rw [← hrest]
            exact List.drop_suffix _ md
          have htmd : testedPos true md t := Or.inr ⟨c, hc, hsufmd⟩
          have hhw := not_hashWsOnly_of_tested hmd htmd
          have he := matchRe2_iff_nextHead hhw
          unfold re2At nextHeadAt
          rw [he]
      have hcg2 := scanP_congr re2At nextHeadAt (s₁.drop (j + (L.length + k))) true hiff2
      -- reduce the spec-side hypothesis hv
      unfold specSection at hv
      rw [hscan] at hv
      simp only [] at hv
      rw [hspec2] at hv
      -- reduce the code side
      unfold extractSection
      rw [hscanC]
      simp only []
      rw [hrest]
      cases hs2 : scanP nextHeadAt true (s₁.drop (j + (L.length + k))) with
      | none =>
        have hcode2 : scanP re2At true (s₁.drop (j + (L.length + k))) = none := by
          rw [hs2] at hcg2
          simpa using hcg2
        rw [hs2] at hv
        simp only [Option.map_none'] at hv
        rw [hcode2]
        simp only []
        -- hv : some (trim (md.drop (p + lineLen))) = some v
        injection hv with hv
        rw [← hv, hbetween, hsplit, trim_ws_pfx _ _ hgapws]
      | some qu =>
        obtain ⟨q, u⟩ := qu
        cases u
        have hcode2 : scanP re2At true (s₁.drop (j + (L.length + k))) = some (q, ()) := by
          rw [hs2] at hcg2
          obtain ⟨⟨q₀, u₀⟩, hc2, hfst2⟩ := Option.map_eq_some'.mp hcg2
          cases u₀
          have : q₀ = q := hfst2
          subst this
          exact hc2
        rw [hs2] at hv
        simp only [Option.map_some'] at hv
        rw [hcode2]
        simp only []
        -- hv : some (trim ((md.drop (p + lineLen)).take (q + gapLen))) = some v
        injection hv with hv
        rw [← hv, hbetween, hsplit]
        rw [show q + ((j + (L.length + k)) - (lineOf s₁).length)
            = ((s₁.drop (lineOf s₁).length).take
                ((j + (L.length + k)) - (lineOf s₁).length)).length + q from by
          rw [hgapLen]; omega]
        rw [List.take_append q, trim_ws_pfx _ _ hgapws]
    · -- impossible: the found line is a heading line, hence starts with '##'
      exfalso
      cases hlof : lineOf (md.drop p) with
      | nil => rw [hlof] at hhead; simp [isHeadingLine] at hhead
      | cons d1 r1 =>
        cases r1 with
        | nil => rw [hlof] at hhead; simp [isHeadingLine] at hhead
        | cons d2 r =>
          rw [hlof] at hhead
          simp only [isHeadingLine, Bool.and_eq_true, decide_eq_true_eq] at hhead
          obtain ⟨⟨e1, e2⟩, -⟩ := hhead
          exact hlne r (by rw [hlof, e1, e2])

/-- C1 (amended): restricted to documents in which no line consists of '##'
followed by whitespace only.  For every such document and heading label, the
document contains a line consisting of '##', whitespace, the exact label and
optional trailing whitespace exactly when `specSection` returns a value; and
in that case `extractSection` returns exactly the text strictly between the
end of the first such line and the next line matching '##' followed by
whitespace (or the end of the document), trimmed of leading and trailing
whitespace, with no characters added or dropped and special characters in
the label matched literally — that is, `specSection`'s value. -/
theorem extractSection_claim (md L : List Char) (hmd : noHashWsLines md = true) :
    ((specSection md L).isSome = true ↔
      (linesOf md).any (fun l => isHeadingLine L l) = true) ∧
    ∀ v, specSection md L = some v → extractSection md L = v :=
  ⟨specSection_isSome_iff md L, extractSection_eq_spec md L hmd⟩

/-- C1 counterexample: the document "x\n##\nFoo\nA\n## Foo\nB\n## Next\nC"
contains the heading line "## Foo"; the text strictly between that line and
the next '##' line, trimmed, is "B" (the value of `specSection`), but
`extractSection` returns "A": the regex escape `\s` also matches newlines,
so `^##\s+Foo\s*$` first matches the earlier bare "##" line together with
the following "Foo" line. -/
theorem extractSection_claim_cex :
    (linesOf ("x\n##\nFoo\nA\n## Foo\nB\n## Next\nC").data).any
      (fun l => isHeadingLine ("Foo").data l) = true ∧
    specSection ("x\n##\nFoo\nA\n## Foo\nB\n## Next\nC").data ("Foo").data
      = some (("B").data) ∧
    extractSection ("x\n##\nFoo\nA\n## Foo\nB\n## Next\nC").data ("Foo").data
      = ("A").data ∧
    ("A").data ≠ ("B").data :=
  ⟨by decide, by decide, by decide, by decide⟩

theorem extractSection_claim_witness :
    noHashWsLines ("## Today\n- a\n- b\n## Next\nc").data = true ∧
    extractSection ("## Today\n- a\n- b\n## Next\nc").data ("Today").data
      = ("- a\n- b").data :=
  ⟨by decide, (extractSection_claim _ _ (by decide)).2 _ (by decide)⟩

/-- C8 (amended): for labels containing no line-terminator character and
documents in which no line consists of '##' followed by whitespace only: if
no line of the document matches the heading label, `extractSection` returns
the empty string (not an error), and the renderer substitutes that
section's fixed placeholder in the long-form report. -/
theorem extractSection_missing_heading (md L d y b dec n : List Char)
    (hL : L.all (fun c => !lineTerm c) = true)
    (hmd : noHashWsLines md = true)
    (hnone : (linesOf md).all (fun l => !isHeadingLine L l) = true) :
    extractSection md L = [] ∧
    managerReport d (extractSection md L) y b dec n =
      reportTemplate d phPriorities y (fallback b phBlockers)
        (fallback dec phDecisions) (fallback n phNotes) := by
  have hempty : extractSection md L = [] := by
    have hscan : scanP (matchRe1 L) true md = none := by
      refine (scanP_none_iff (matchRe1 L) md true).mpr ?_
      intro t ht
      have hhw := not_hashWsOnly_of_tested hmd ht
      have hiff := matchRe1_iff_heading hhw hL
      have hline : isHeadingLine L (lineOf t) = false := by
        have hmem := lineOf_mem md t ht
        have := List.all_eq_true.mp hnone _ hmem
        simpa using this
      cases hm : matchRe1 L t with
      | none => rfl
      | some x =>
        exfalso
        have hs : (matchRe1 L t).isSome = true := by rw [hm]; rfl
        have h2 := hiff.mp hs
        rw [h2] at hline
        exact Bool.noConfusion hline
    unfold extractSection
    rw [hscan]
  refine ⟨hempty, ?_⟩
  rw [hempty]
  simp [managerReport, fallback]

/-- C8 counterexample: the document "##\nFoo\nA" contains no line matching
the label "Foo", yet `extractSection` returns "A" rather than the empty
string: the `\s+` of the heading pattern matches the newline after the bare
"##" line. -/
theorem extractSection_missing_heading_cex :
    (linesOf ("##\nFoo\nA").data).all
      (fun l => !isHeadingLine ("Foo").data l) = true ∧
    extractSection ("##\nFoo\nA").data ("Foo").data = ("A").data ∧
    ("A").data ≠ [] :=
  ⟨by decide, by decide, by decide⟩

theorem extractSection_missing_heading_witness :
    (("Foo").data.all (fun c => !lineTerm c) = true) ∧
    noHashWsLines ("## Bar\nx").data = true ∧
    (linesOf ("## Bar\nx").data).all
      (fun l => !isHeadingLine ("Foo").data l) = true ∧
    extractSection ("## Bar\nx").data ("Foo").data = [] :=
  ⟨by decide, by decide, by decide,
    (extractSection_missing_heading ("## Bar\nx").data ("Foo").data
      [] [] [] [] [] (by decide) (by decide) (by decide)).1⟩

/-! ### Locating the latest prior brief (`findLatestBrief`) -/

/-- JavaScript `f.replace(".md", "")` with a plain-string argument: remove
the first (leftmost) occurrence of ".md", if any. -/
def replaceFirstMd : List Char → List Char
  | [] => []
  | c :: rest =>
    if c = '.' ∧ rest.take 2 = ['m', 'd'] then rest.drop 2
    else c :: replaceFirstMd rest

/-- JavaScript `f.endsWith(".md")`. -/
def endsWithMd (f : List Char) : Bool := ['.', 'm', 'd'].isSuffixOf f

/-- Test of the pattern `/^\d{4}-\d{2}-\d{2}$/`. -/
def isDateStr : List Char → Bool
  | [y1, y2, y3, y4, s1, m1, m2, s2, d1, d2] =>
    y1.isDigit && y2.isDigit && y3.isDigit && y4.isDigit && s1 = '-' &&
    m1.isDigit && m2.isDigit && s2 = '-' && d1.isDigit && d2.isDigit
  | _ => false

/-- The file name minus its three-character ".md" extension (the wording of
the claim). -/
def stripMd (f : List Char) : List Char := f.take (f.length - 3)

/-- Lexicographic comparison of strings, JavaScript's `<` on strings (the
script only compares ASCII date keys, where UTF-16 code-unit order and
code-point order coincide). -/
def lexLt : List Char → List Char → Bool
  | [], [] => false
  | [], _ :: _ => true
  | _ :: _, [] => false
  | a :: as, b :: bs => if a < b then true else if b < a then false else lexLt as bs

/-- One insertion step of a descending insertion sort on (name, key) pairs,
modelling the comparator `(a, b) => (a.d < b.d ? 1 : -1)` handed to `.sort`
(for the distinct keys of a directory listing every sorted permutation
agrees, so the stable insertion sort is a faithful model). -/
def insertByDesc (x : List Char × List Char) :
    List (List Char × List Char) → List (List Char × List Char)
  | [] => [x]
  | y :: rest => if lexLt y.2 x.2 then x :: y :: rest else y :: insertByDesc x rest

/-- Sort a keyed file list in descending key order. -/
def sortDesc (l : List (List Char × List Char)) : List (List Char × List Char) :=
  l.foldr insertByDesc []

/-- `findLatestBrief(briefDir)` (lines 66-74 of the script): `none` when the
directory does not exist; otherwise keep the names ending in ".md", key each
by `f.replace(".md", "")`, keep those whose key matches the date pattern,
sort descending by key and return the first name.  The source returns
`path.join(briefDir, f)` and its only caller immediately reduces that back
to the bare name with `path.basename`; the model returns the name. -/
def findLatestBrief (dir : Option (List (List Char))) : Option (List Char) :=
  match dir with
  | none => none
  | some files =>
    let dated := ((files.filter endsWithMd).map
      (fun f => (f, replaceFirstMd f))).filter (fun x => isDateStr x.2)
    (sortDesc dated).head?.map (fun x => x.1)

/-- Claim-side predicate: the name minus its ".md" extension matches the
date pattern. -/
def isDatedBrief (f : List Char) : Bool := endsWithMd f && isDateStr (stripMd f)

theorem lexLt_irrefl : ∀ a : List Char, lexLt a a = false := by
  intro a
  induction a with
  | nil => rfl
  | cons c as ih => simp [lexLt, ih]

theorem lexLt_asymm : ∀ a b : List Char, lexLt a b = true → lexLt b a = false := by
  intro a
  induction a with
  | nil =>
    intro b hab
    cases b with
    | nil => exact absurd hab (by simp [lexLt])
    | cons y bs => simp [lexLt]
  | cons x as ih =>
    intro b hab
    cases b with
    | nil => exact absurd hab (by simp [lexLt])
    | cons y bs =>
      simp only [lexLt] at hab ⊢
      by_cases hxy : x < y
      · rw [if_neg (lt_asymm hxy), if_pos hxy]
      · by_cases hyx : y < x
        · rw [if_neg hxy, if_pos hyx] at hab
          exact absurd hab (by simp)
        · have hxy' : x = y := le_antisymm (not_lt.mp hyx) (not_lt.mp hxy)
          subst hxy'
          rw [if_neg hxy, if_neg hxy] at hab ⊢
          exact ih bs hab

theorem lexLt_trans :
    ∀ a b c : List Char, lexLt a b = true → lexLt b c = true → lexLt a c = true := by
  intro a
  induction a with
  | nil =>
    intro b c hab hbc
    cases c with
    | cons z cs => rfl
    | nil =>
      cases b with
      | nil => exact absurd hab (by simp [lexLt])
      | cons y bs => exact absurd hbc (by simp [lexLt])
  | cons x as ih =>
    intro b c hab hbc
    cases b with
    | nil => exact absurd hab (by simp [lexLt])
    | cons y bs =>
      cases c with
      | nil => exact absurd hbc (by simp [lexLt])
      | cons z cs =>
        simp only [lexLt] at hab hbc ⊢
        by_cases hxy : x < y
        · by_cases hyz : y < z
          · rw [if_pos (lt_trans hxy hyz)]
          · by_cases hzy : z < y
            · rw [if_neg hyz, if_pos hzy] at hbc
              exact absurd hbc (by simp)
            · have hyz' : y = z := le_antisymm (not_lt.mp hzy) (not_lt.mp hyz)
              subst hyz'
              rw [if_pos hxy]
        · by_cases hyx : y < x
          · rw [if_neg hxy, if_pos hyx] at hab
            exact absurd hab (by simp)
          · have hxy' : x = y := le_antisymm (not_lt.mp hyx) (not_lt.mp hxy)
            subst hxy'
            rw [if_neg hxy, if_neg hxy] at hab
            by_cases hxz : x < z
            · rw [if_pos hxz]
            · by_cases hzx : z < x
              · rw [if_neg hxz, if_pos hzx] at hbc
                exact absurd hbc (by simp)
              · have hxz' : x = z := le_antisymm (not_lt.mp hzx) (not_lt.mp hxz)
                subst hxz'
                rw [if_neg hxz, if_neg hxz] at hbc ⊢
                exact ih bs cs hab hbc

theorem lexLt_trichotomy :
    ∀ a b : List Char, a = b ∨ lexLt a b = true ∨ lexLt b a = true := by
  intro a
  induction a with
  | nil =>
    intro b
    cases b with
    | nil => exact Or.inl rfl
    | cons y bs => exact Or.inr (Or.inl rfl)
  | cons x as ih =>
    intro b
    cases b with
    | nil => exact Or.inr (Or.inr rfl)
    | cons y bs =>
      rcases lt_trichotomy x y with h | h | h
      · refine Or.inr (Or.inl ?_)
        simp only [lexLt]
        rw [if_pos h]
      · subst h
        rcases ih bs with h2 | h2 | h2
        · exact Or.inl (by rw [h2])
        · refine Or.inr (Or.inl ?_)
          simp only [lexLt]
          rw [if_neg (lt_irrefl x), if_neg (lt_irrefl x)]
          exact h2
        · refine Or.inr (Or.inr ?_)
          simp only [lexLt]
          rw [if_neg (lt_irrefl x), if_neg (lt_irrefl x)]
          exact h2
      · refine Or.inr (Or.inr ?_)
        simp only [lexLt]
        rw [if_pos h]

theorem insertByDesc_mem (z x : List Char × List Char) :
    ∀ l, z ∈ insertByDesc x l ↔ z = x ∨ z ∈ l := by
  intro l
  induction l with
  | nil => simp [insertByDesc]
  | cons y rest ih =>
    simp only [insertByDesc]
    split
    · simp [List.mem_cons]
    · simp only [List.mem_cons, ih]
      tauto

theorem insertByDesc_pairwise (x : List Char × List Char)
    (l : List (List Char × List Char))
    (hl : l.Pairwise (fun a b => lexLt a.2 b.2 = false)) :
    (insertByDesc x l).Pairwise (fun a b => lexLt a.2 b.2 = false) := by
  induction l with
  | nil => simp [insertByDesc]
  | cons y rest ih =>
    rw [List.pairwise_cons] at hl
    obtain ⟨hy, hrest⟩ := hl
    simp only [insertByDesc]
    split
    · rename_i hcond
      rw [List.pairwise_cons]
      constructor
      · intro z hz
        rcases List.mem_cons.mp hz with rfl | hz
        · exact lexLt_asymm _ _ hcond
        · cases h : lexLt x.2 z.2 with
          | false => rfl
          | true =>
            have h2 : lexLt y.2 z.2 = true := lexLt_trans _ _ _ hcond h
            rw [hy z hz] at h2
            exact Bool.noConfusion h2
      · exact List.pairwise_cons.mpr ⟨hy, hrest⟩
    · rename_i hcond
      rw [List.pairwise_cons]
      constructor
      · intro z hz
        rcases (insertByDesc_mem z x rest).mp hz with rfl | hz
        · exact Bool.eq_false_iff.mpr hcond
        · exact hy z hz
      · exact ih hrest

theorem insertByDesc_length (x : List Char × List Char) :
    ∀ l, (insertByDesc x l).length = l.length + 1 := by
  intro l
  induction l with
  | nil => rfl
  | cons y rest ih =>
    simp only [insertByDesc]
    split
    · simp
    · simp [ih]

theorem sortDesc_pairwise (l : List (List Char × List Char)) :
    (sortDesc l).Pairwise (fun a b => lexLt a.2 b.2 = false) := by
  induction l with
  | nil => simp [sortDesc]
  | cons x rest ih => exact insertByDesc_pairwise x (sortDesc rest) ih

theorem sortDesc_mem (z : List Char × List Char) (l : List (List Char × List Char)) :
    z ∈ sortDesc l ↔ z ∈ l := by
  induction l with
  | nil => simp [sortDesc]
  | cons x rest ih =>
    show z ∈ insertByDesc x (sortDesc rest) ↔ _
    rw [insertByDesc_mem z x (sortDesc rest), ih]
    simp [List.mem_cons]

theorem sortDesc_length (l : List (List Char × List Char)) :
    (sortDesc l).length = l.length := by
  induction l with
  | nil => rfl
  | cons x rest ih =>
    show (insertByDesc x (sortDesc rest)).length = _
    rw [insertByDesc_length, ih]
    rfl

theorem sortDesc_head_max {l : List (List Char × List Char)}
    {h : List Char × List Char} (hh : (sortDesc l).head? = some h) :
    ∀ z ∈ l, lexLt h.2 z.2 = false := by
  intro z hz
  rcases hsl : sortDesc l with _ | ⟨h', tl⟩
  · rw [hsl] at hh; exact absurd hh (by simp)
  · rw [hsl] at hh
    have hh' : h' = h := by injection hh
    subst hh'
    have hz' : z ∈ sortDesc l := (sortDesc_mem z l).mpr hz
    rw [hsl] at hz'
    rcases List.mem_cons.mp hz' with rfl | hz'
    · exact lexLt_irrefl _
    · have hp := sortDesc_pairwise l
      rw [hsl, List.pairwise_cons] at hp
      exact hp.1 z hz'

theorem isDateStr_no_dot {d : List Char} (h : isDateStr d = true) : '.' ∉ d := by
  unfold isDateStr at h
  split at h
  · rename_i y1 y2 y3 y4 s1 m1 m2 s2 d1 d2
    simp only [Bool.and_eq_true, decide_eq_true_eq] at h
    obtain ⟨⟨⟨⟨⟨⟨⟨⟨⟨h1, h2⟩, h3⟩, h4⟩, h5⟩, h6⟩, h7⟩, h8⟩, h9⟩, h10⟩ := h
    intro hmem
    simp only [List.mem_cons, List.not_mem_nil, or_false] at hmem
    rcases hmem with rfl | rfl | rfl | rfl | rfl | rfl | rfl | rfl | rfl | rfl
    · exact absurd h1 (by decide)
    · exact absurd h2 (by decide)
    · exact absurd h3 (by decide)
    · exact absurd h4 (by decide)
    · exact absurd h5 (by decide)
    · exact absurd h6 (by decide)
    · exact absurd h7 (by decide)
    · exact absurd h8 (by decide)
    · exact absurd h9 (by decide)
    · exact absurd h10 (by decide)
  · exact absurd h (by simp)

theorem replaceFirstMd_no_dot :
    ∀ t : List Char, '.' ∉ t → replaceFirstMd (t ++ ['.', 'm', 'd']) = t := by
  intro t
  induction t with
  | nil => intro h; rfl
  | cons c t' ih =>
    intro hdot
    have hc : c ≠ '.' := fun h => hdot (by simp [h])
    rw [List.cons_append, replaceFirstMd, if_neg (fun h => hc h.1)]
    rw [ih (fun h => hdot (by simp [h]))]

theorem replaceFirstMd_append :
    ∀ t : List Char, replaceFirstMd (t ++ ['.', 'm', 'd']) = t ∨
      '.' ∈ replaceFirstMd (t ++ ['.', 'm', 'd']) := by
  intro t
  induction t with
  | nil => exact Or.inl rfl
  | cons c t' ih =>
    rw [List.cons_append, replaceFirstMd]
    split
    · rename_i hcond
      -- the ".md" found starts at `c`; the remainder still holds a '.'
      right
      have hdotmem : '.' ∈ t' ++ ['.', 'm', 'd'] := by simp
      rw [← List.take_append_drop 2 (t' ++ ['.', 'm', 'd']), hcond.2] at hdotmem
      rcases List.mem_append.mp hdotmem with h | h
      · exact absurd h (by decide)
      · exact h
    · rename_i hcond
      by_cases hc : c = '.'
      · exact Or.inr (by simp [hc])
      · rcases ih with heq | hdot
        · exact Or.inl (by rw [heq])
        · exact Or.inr (by simp [hdot])

theorem endsWithMd_iff {f : List Char} :
    endsWithMd f = true ↔ ∃ t, f = t ++ ['.', 'm', 'd'] := by
  unfold endsWithMd
  rw [List.isSuffixOf_iff_suffix]
  constructor
  · intro h
    obtain ⟨t, ht⟩ := h
    exact ⟨t, ht.symm⟩
  · intro h
    obtain ⟨t, ht⟩ := h
    exact ⟨t, ht.symm⟩

theorem stripMd_append (t : List Char) : stripMd (t ++ ['.', 'm', 'd']) = t := by
  unfold stripMd
  rw [List.length_append]
  simp [List.take_left]

/-- For a name ending in ".md": the JavaScript key `f.replace(".md", "")`
matches the date pattern exactly when the name minus its extension does, and
then the two coincide. -/
theorem replaceFirstMd_bridge {f : List Char} (hf : endsWithMd f = true) :
    (isDateStr (replaceFirstMd f) = true ↔ isDateStr (stripMd f) = true) ∧
    (isDateStr (replaceFirstMd f) = true → replaceFirstMd f = stripMd f) := by
  obtain ⟨t, rfl⟩ := endsWithMd_iff.mp hf
  rw [stripMd_append]
  rcases replaceFirstMd_append t with heq | hdot
  · rw [heq]
    exact ⟨Iff.rfl, fun _ => rfl⟩
  · constructor
    · constructor
      · intro h
        exact absurd hdot (isDateStr_no_dot h)
      · intro h
        rw [replaceFirstMd_no_dot t (isDateStr_no_dot h)]
        exact h
    · intro h
      exact absurd hdot (isDateStr_no_dot h)

/-- Unfolding of `findLatestBrief` on a present directory. -/
theorem findLatestBrief_some (files : List (List Char)) :
    findLatestBrief (some files) =
      (sortDesc (((files.filter endsWithMd).map
        (fun g => (g, replaceFirstMd g))).filter (fun y => isDateStr y.2))).head?.map
        (fun x => x.1) := rfl

/-- C4: the "latest prior report" is the name whose ".md"-stripped form
matches the date pattern and is lexicographically greatest among such names;
non-matching names are ignored, and the result is `none` exactly when the
directory is missing or holds no matching name. -/
theorem findLatestBrief_claim (files : List (List Char)) (f : List Char) :
    findLatestBrief none = none ∧
    (findLatestBrief (some files) = none ↔ ∀ g ∈ files, isDatedBrief g = false) ∧
    (findLatestBrief (some files) = some f →
      isDatedBrief f = true ∧ f ∈ files ∧
      ∀ g ∈ files, isDatedBrief g = true →
        g = f ∨ lexLt (stripMd g) (stripMd f) = true) := by
  have hmem : ∀ x : List Char × List Char,
      x ∈ ((files.filter endsWithMd).map (fun g => (g, replaceFirstMd g))).filter
          (fun y => isDateStr y.2) ↔
        x.1 ∈ files ∧ endsWithMd x.1 = true ∧ x.2 = replaceFirstMd x.1 ∧
          isDateStr x.2 = true := by
    intro x
    constructor
    · intro hx
      rw [List.mem_filter] at hx
      obtain ⟨hx1, hx2⟩ := hx
      rw [List.mem_map] at hx1
      obtain ⟨g, hg, hgx⟩ := hx1
      rw [List.mem_filter] at hg
      subst hgx
      exact ⟨hg.1, hg.2, rfl, hx2⟩
    · intro hx
      obtain ⟨h1, h2, h3, h4⟩ := hx
      rw [List.mem_filter]
      refine ⟨?_, h4⟩
      rw [List.mem_map]
      refine ⟨x.1, ?_, ?_⟩
      · rw [List.mem_filter]
        exact ⟨h1, h2⟩
      · show (x.1, replaceFirstMd x.1) = x
        rw [← h3]
  refine ⟨rfl, ?_, ?_⟩
  · constructor
    · intro h g hg
      rw [findLatestBrief_some, Option.map_eq_none', List.head?_eq_none_iff] at h
      have hdated : ((files.filter endsWithMd).map
          (fun g => (g, replaceFirstMd g))).filter (fun y => isDateStr y.2) = [] :=
        List.eq_nil_of_length_eq_zero (by rw [← sortDesc_length, h]; rfl)
      cases hb : isDatedBrief g with
      | false => rfl
      | true =>
        exfalso
        simp only [isDatedBrief, Bool.and_eq_true] at hb
        have hd : isDateStr (replaceFirstMd g) = true :=
          (replaceFirstMd_bridge hb.1).1.mpr hb.2
        have hin := (hmem (g, replaceFirstMd g)).mpr ⟨hg, hb.1, rfl, hd⟩
        rw [hdated] at hin
        exact List.not_mem_nil _ hin
    · intro h
      rw [findLatestBrief_some, Option.map_eq_none', List.head?_eq_none_iff]
      have hdated : ((files.filter endsWithMd).map
          (fun g => (g, replaceFirstMd g))).filter (fun y => isDateStr y.2) = [] := by
        rw [List.eq_nil_iff_forall_not_mem]
        intro x hx
        obtain ⟨h1, h2, h3, h4⟩ := (hmem x).mp hx
        have hb : isDatedBrief x.1 = true := by
          simp only [isDatedBrief, Bool.and_eq_true]
          exact ⟨h2, (replaceFirstMd_bridge h2).1.mp (h3 ▸ h4)⟩
        rw [h x.1 h1] at hb
        exact Bool.noConfusion hb
      rw [hdated]
      rfl
  · intro hsome
    rw [findLatestBrief_some, Option.map_eq_some'] at hsome
    obtain ⟨x, hx1, hx2⟩ := hsome
    have hx2' : x.1 = f := hx2
    have hxmem : x ∈ ((files.filter endsWithMd).map
        (fun g => (g, replaceFirstMd g))).filter (fun y => isDateStr y.2) := by
      rw [← sortDesc_mem]
      rcases hl : sortDesc (((files.filter endsWithMd).map
          (fun g => (g, replaceFirstMd g))).filter (fun y => isDateStr y.2)) with _ | ⟨a, tl⟩
      · rw [hl] at hx1
        exact absurd hx1 (by simp)
      · rw [hl] at hx1
        injection hx1 with hx1
        rw [← hx1]
        exact List.mem_cons_self a tl
    obtain ⟨h1, h2, h3, h4⟩ := (hmem x).mp hxmem
    have hEf : endsWithMd f = true := hx2' ▸ h2
    have hDf : isDateStr (replaceFirstMd f) = true := by
      rw [← hx2', ← h3]
      exact h4
    have hxf : x.2 = stripMd f := by
      rw [h3, hx2']
      exact (replaceFirstMd_bridge hEf).2 hDf
    have hbf : isDatedBrief f = true := by
      simp only [isDatedBrief, Bool.and_eq_true]
      exact ⟨hEf, (replaceFirstMd_bridge hEf).1.mp hDf⟩
    refine ⟨hbf, hx2' ▸ h1, ?_⟩
    intro g hg hgb
    simp only [isDatedBrief, Bool.and_eq_true] at hgb
    have hgd : isDateStr (replaceFirstMd g) = true :=
      (replaceFirstMd_bridge hgb.1).1.mpr hgb.2
    have hgmem : (g, replaceFirstMd g) ∈ ((files.filter endsWithMd).map
        (fun g => (g, replaceFirstMd g))).filter (fun y => isDateStr y.2) :=
      (hmem (g, replaceFirstMd g)).mpr ⟨hg, hgb.1, rfl, hgd⟩
    have hmax := sortDesc_head_max hx1 (g, replaceFirstMd g) hgmem
    have hg2 : replaceFirstMd g = stripMd g := (replaceFirstMd_bridge hgb.1).2 hgd
    rw [hxf] at hmax
    rcases lexLt_trichotomy (stripMd g) (stripMd f) with he | hlt | hgt
    · left
      obtain ⟨tg, rfl⟩ := endsWithMd_iff.mp hgb.1
      obtain ⟨tf, hf⟩ := endsWithMd_iff.mp hEf
      rw [stripMd_append, hf, stripMd_append] at he
      rw [hf, he]
    · exact Or.inr hlt
    · exfalso
      have hmax' : lexLt (stripMd f) (replaceFirstMd g) = false := hmax
      rw [hg2, hgt] at hmax'
      exact Bool.noConfusion hmax'

/-- C4 witness: on the spec's example listing {2024-01-01.md, 2024-02-15.md,
notes.md} the latest prior report is 2024-02-15.md, it is a dated brief from
the listing, and 2024-01-01.md sorts below it. -/
theorem findLatestBrief_claim_witness :
    findLatestBrief (some [("2024-01-01.md").data, ("2024-02-15.md").data,
        ("notes.md").data]) = some (("2024-02-15.md").data) ∧
    isDatedBrief (("2024-02-15.md").data) = true ∧
    ("2024-02-15.md").data ∈ [("2024-01-01.md").data, ("2024-02-15.md").data,
        ("notes.md").data] ∧
    (("2024-01-01.md").data = ("2024-02-15.md").data ∨
      lexLt (stripMd (("2024-01-01.md").data))
        (stripMd (("2024-02-15.md").data)) = true) := by
  have h := (findLatestBrief_claim [("2024-01-01.md").data, ("2024-02-15.md").data,
      ("notes.md").data] (("2024-02-15.md").data)).2.2 (by decide)
  exact ⟨by decide, h.1, h.2.1, h.2.2 (("2024-01-01.md").data) (by decide) (by decide)⟩

/-! ### Computing today's date string (`todayISO`) -/

/-- One decimal digit as a character. -/
def digitChar (n : Nat) : Char := Char.ofNat (48 + n % 10)

/-- A number rendered as exactly four decimal digits (zero-padded), the year
field of `Date.prototype.toISOString` for years 0..9999. -/
def pad4 (n : Nat) : List Char :=
  [digitChar (n / 1000), digitChar (n / 100), digitChar (n / 10), digitChar n]

/-- A number rendered as exactly two decimal digits (zero-padded). -/
def pad2 (n : Nat) : List Char := [digitChar (n / 10), digitChar n]

/-- A number rendered as exactly three decimal digits (zero-padded). -/
def pad3 (n : Nat) : List Char := [digitChar (n / 100), digitChar (n / 10), digitChar n]

/-- Proleptic-Gregorian civil date (year, month, day) of a day count since
1970-01-01, the calendar arithmetic ECMAScript prescribes for `Date`
(computed by the standard era/day-of-era decomposition). -/
def civilFromDays (z : Nat) : Nat × Nat × Nat :=
  let w := z + 719468
  let era := w / 146097
  let doe := w % 146097
  let yoe := (doe - doe / 1460 + doe / 36524 - doe / 146096) / 365
  let y := yoe + era * 400
  let doy := doe - (365 * yoe + yoe / 4 - yoe / 100)
  let mp := (5 * doy + 2) / 153
  let d := doy - (153 * mp + 2) / 5 + 1
  let m := if mp < 10 then mp + 3 else mp - 9
  (if m ≤ 2 then y + 1 else y, m, d)

/-- The `YYYY-MM-DD` calendar-date rendering of a millisecond instant. -/
def toISODate (ms : Nat) : List Char :=
  pad4 (civilFromDays (ms / 86400000)).1 ++ ['-'] ++
  pad2 (civilFromDays (ms / 86400000)).2.1 ++ ['-'] ++
  pad2 (civilFromDays (ms / 86400000)).2.2

/-- The `THH:mm:ss.sssZ` tail of `toISOString`. -/
def isoTimePart (ms : Nat) : List Char :=
  'T' :: pad2 (ms % 86400000 / 3600000) ++ [':'] ++ pad2 (ms % 3600000 / 60000) ++
  [':'] ++ pad2 (ms % 60000 / 1000) ++ ['.'] ++ pad3 (ms % 1000) ++ ['Z']

/-- `Date.prototype.toISOString` on a millisecond instant (faithful for
instants whose year has at most four digits; beyond that ECMAScript switches
to the six-digit expanded-year form). -/
def toISOString (ms : Nat) : List Char := toISODate ms ++ isoTimePart ms

/-- `todayISO()` (lines 39-45 of the script): shift the clock reading by six
hours and keep the first ten characters of its ISO rendering. -/
def todayISO (nowMs : Nat) : List Char :=
  (toISOString (nowMs + 6 * 60 * 60 * 1000)).take 10

theorem toISODate_length (ms : Nat) : (toISODate ms).length = 10 := by
  simp [toISODate, pad4, pad2, List.length_append]

/-- C9: for every instant (below the four-digit-year bound where the ISO
rendering is ten-plus-`T`-tail), the computed today string is exactly the
calendar date of the instant shifted forward by six hours: the same calendar
day as the instant itself when its UTC time of day is before 18:00, and the
next calendar day otherwise — a fixed-offset computation from the clock
value alone, with no timezone-database input. -/
theorem todayISO_claim (now : Nat) (_hy : now + 21600000 < 253402300800000) :
    todayISO now = toISODate (now + 6 * 60 * 60 * 1000) ∧
    (now % 86400000 < 64800000 → todayISO now = toISODate now) ∧
    (64800000 ≤ now % 86400000 → todayISO now = toISODate (now + 86400000)) := by
  have h1 : todayISO now = toISODate (now + 6 * 60 * 60 * 1000) := by
    rw [todayISO, toISOString, ← toISODate_length (now + 6 * 60 * 60 * 1000),
      List.take_left]
  refine ⟨h1, ?_, ?_⟩
  · intro h2
    have hdiv : (now + 6 * 60 * 60 * 1000) / 86400000 = now / 86400000 := by omega
    rw [h1, toISODate, toISODate, hdiv]
  · intro h3
    have hdiv : (now + 6 * 60 * 60 * 1000) / 86400000 = (now + 86400000) / 86400000 := by
      omega
    rw [h1, toISODate, toISODate, hdiv]

/-- C9 witness: at the epoch instant the shifted date is still 1970-01-01,
and the morning branch of the claim applies. -/
theorem todayISO_claim_witness :
    (0 : Nat) + 21600000 < 253402300800000 ∧
    (0 : Nat) % 86400000 < 64800000 ∧
    todayISO 0 = ("1970-01-01").data ∧ toISODate 0 = ("1970-01-01").data := by
  refine ⟨by decide, by decide, ?_, by decide⟩
  rw [(todayISO_claim 0 (by decide)).2.1 (by decide)]
  decide

/-! ### The run coordinator (the `main` IIFE and its `.catch`, lines 76-149) -/

/-- The environment variables the script reads. `none` models an unset
variable. -/
structure Env where
  telegramBotToken : Option (List Char)
  telegramChatId : Option (List Char)
  githubRepo : Option (List Char)

/-- The parts of the file system the run consults: the content of
`ops/priorities.md` (`none` when unreadable) and the listing of `ops/briefs`
(`none` when the directory is missing). -/
structure FileSys where
  prioritiesFile : Option (List Char)
  briefDirFiles : Option (List (List Char))

/-- The observable outcome of a run: the process exit status, the single
`writeFileSync` call if it was reached (path and content), and the texts of
every attempted network send. -/
structure RunResult where
  exitCode : Nat
  writtenBrief : Option (List Char × List Char)
  telegramCalls : List (List Char)

/-- `readFileSafe` (lines 47-53): the file's content, or the empty string
when reading throws. -/
def readFileSafe (f : Option (List Char)) : List Char := f.getD []

/-- JavaScript truthiness of an environment variable: falsy when unset or
empty. -/
def falsy (v : Option (List Char)) : Bool := (v.getD []).isEmpty

/-- JavaScript `v || dflt` on an environment variable. -/
def envOr (v : Option (List Char)) (dflt : List Char) : List Char :=
  if falsy v then dflt else v.getD []

/-- `sendTelegram` (lines 10-37): return silently (no network call) when the
token or the chat id is falsy; otherwise perform exactly one call, and throw
when the response's `ok` field (`tgOk`) is falsy.  The result pairs the
attempted calls with whether the function returned normally. -/
def sendTelegram (env : Env) (tgOk : Bool) (text : List Char) :
    List (List Char) × Bool :=
  if falsy env.telegramBotToken || falsy env.telegramChatId then ([], true)
  else ([text], tgOk)

/-- The `yesterdayRef` binding (line 98): the latest prior brief's name with
its ".md" extension removed by `path.basename`, or "N/A" when there is
none. -/
def yesterdayRef (dir : Option (List (List Char))) : List Char :=
  match findLatestBrief dir with
  | none => ("N/A").data
  | some f => stripMd f

/-- `path.join("ops", "briefs", date + ".md")` as the script assembles it. -/
def briefPath (date : List Char) : List Char :=
  ("ops/briefs/").data ++ date ++ (".md").data

/-- The `briefUrl` template literal (line 131). -/
def briefUrl (repo date : List Char) : List Char :=
  ("https://github.com/").data ++ repo ++ ("/blob/main/ops/briefs/").data ++
  date ++ (".md").data

/-- Heading label of the weekly-outcomes section. -/
def labelThisWeek : List Char := ("This Week Outcomes (measurable)").data

/-- Heading label of the top-priorities section. -/
def labelTodayTop : List Char := ("Today — Top Priorities (in order)").data

/-- Heading label of the blockers section. -/
def labelBlockers : List Char := ("Blockers / Risks").data

/-- Heading label of the decisions section. -/
def labelDecisions : List Char := ("Decisions Needed").data

/-- Heading label of the notes section. -/
def labelNotes : List Char := ("Notes").data

/-- The run coordinator: `nowMs` is the clock reading and `tgOk` the `ok`
field of the Telegram response.  An exception anywhere reaches the final
`.catch`, which exits with status 1; an empty (or unreadable) priorities
document throws before any output.  The report is written before the send is
attempted, so a failed send leaves the written file behind. -/
def runMain (env : Env) (fsys : FileSys) (nowMs : Nat) (tgOk : Bool) : RunResult :=
  let repo := envOr env.githubRepo ("OWNER/REPO").data
  let date := todayISO nowMs
  let priorities := readFileSafe fsys.prioritiesFile
  if priorities = [] then ⟨1, none, []⟩
  else
    let _thisWeek := extractSection priorities labelThisWeek
    let todayTop := extractSection priorities labelTodayTop
    let blockers := extractSection priorities labelBlockers
    let decisions := extractSection priorities labelDecisions
    let notes := extractSection priorities labelNotes
    let yRef := yesterdayRef fsys.briefDirFiles
    let report := managerReport date todayTop yRef blockers decisions notes
    let url := briefUrl repo date
    let summary := execSummary date todayTop blockers decisions url
    let send := sendTelegram env tgOk summary
    ⟨if send.2 then 0 else 1, some (briefPath date, report), send.1⟩

/-- C5: when the priorities document does not exist, the run exits with
status 1, writes no report file and attempts no network call. -/
theorem runMain_missing_priorities (env : Env) (fsys : FileSys) (nowMs : Nat)
    (tgOk : Bool) (h : fsys.prioritiesFile = none) :
    runMain env fsys nowMs tgOk = ⟨1, none, []⟩ := by
  simp [runMain, readFileSafe, h]

/-- C5 witness: a run with no priorities file, on an otherwise empty world,
exits 1 with nothing written and nothing sent. -/
theorem runMain_missing_priorities_witness :
    (FileSys.mk none none).prioritiesFile = none ∧
    runMain ⟨none, none, none⟩ ⟨none, none⟩ 0 true = ⟨1, none, []⟩ :=
  ⟨rfl, runMain_missing_priorities ⟨none, none, none⟩ ⟨none, none⟩ 0 true rfl⟩

/-- C6: with both messaging credentials present and a falsy `ok` field in the
endpoint's response, the run exits with status 1, but today's long-form
report has already been written, and a network call was attempted. -/
theorem runMain_delivery_failure (env : Env) (fsys : FileSys) (nowMs : Nat)
    (p : List Char)
    (htok : falsy env.telegramBotToken = false)
    (hchat : falsy env.telegramChatId = false)
    (hp : fsys.prioritiesFile = some p) (hne : p ≠ []) :
    (runMain env fsys nowMs false).exitCode = 1 ∧
    (runMain env fsys nowMs false).writtenBrief =
      some (briefPath (todayISO nowMs),
        managerReport (todayISO nowMs) (extractSection p labelTodayTop)
          (yesterdayRef fsys.briefDirFiles) (extractSection p labelBlockers)
          (extractSection p labelDecisions) (extractSection p labelNotes)) ∧
    (runMain env fsys nowMs false).telegramCalls ≠ [] := by
  simp only [runMain, readFileSafe, hp, Option.getD_some]
  rw [if_neg hne]
  simp [sendTelegram, htok, hchat]

/-- C6 witness: credentials set, a one-character priorities file, and a
failing endpoint give exit 1 with the report written and one call
attempted. -/
theorem runMain_delivery_failure_witness :
    falsy (some ("t").data) = false ∧
    (runMain ⟨some ("t").data, some ("c").data, none⟩
        ⟨some ("x").data, none⟩ 0 false).exitCode = 1 ∧
    (runMain ⟨some ("t").data, some ("c").data, none⟩
        ⟨some ("x").data, none⟩ 0 false).writtenBrief ≠ none ∧
    (runMain ⟨some ("t").data, some ("c").data, none⟩
        ⟨some ("x").data, none⟩ 0 false).telegramCalls ≠ [] := by
  have h := runMain_delivery_failure ⟨some ("t").data, some ("c").data, none⟩
    ⟨some ("x").data, none⟩ 0 ("x").data (by decide) (by decide) rfl (by decide)
  exact ⟨by decide, h.1, by simp [h.2.1], h.2.2⟩

/-- C7: when the token or the chat id is absent (or empty), the run completes
with exit status 0, the report file is still written, and no network call is
attempted. -/
theorem runMain_skip_delivery (env : Env) (fsys : FileSys) (nowMs : Nat)
    (tgOk : Bool) (p : List Char)
    (hmiss : falsy env.telegramBotToken = true ∨ falsy env.telegramChatId = true)
    (hp : fsys.prioritiesFile = some p) (hne : p ≠ []) :
    (runMain env fsys nowMs tgOk).exitCode = 0 ∧
    (runMain env fsys nowMs tgOk).writtenBrief =
      some (briefPath (todayISO nowMs),
        managerReport (todayISO nowMs) (extractSection p labelTodayTop)
          (yesterdayRef fsys.briefDirFiles) (extractSection p labelBlockers)
          (extractSection p labelDecisions) (extractSection p labelNotes)) ∧
    (runMain env fsys nowMs tgOk).telegramCalls = [] := by
  simp only [runMain, readFileSafe, hp, Option.getD_some]
  rw [if_neg hne]
  rcases hmiss with h | h <;> simp [sendTelegram, h]

/-- C7 witness: with the token unset the run exits 0, the report is written
and nothing is sent. -/
theorem runMain_skip_delivery_witness :
    falsy (none : Option (List Char)) = true ∧
    (runMain ⟨none, some ("c").data, none⟩
        ⟨some ("x").data, none⟩ 0 true).exitCode = 0 ∧
    (runMain ⟨none, some ("c").data, none⟩
        ⟨some ("x").data, none⟩ 0 true).writtenBrief ≠ none ∧
    (runMain ⟨none, some ("c").data, none⟩
        ⟨some ("x").data, none⟩ 0 true).telegramCalls = [] := by
  have h := runMain_skip_delivery ⟨none, some ("c").data, none⟩
    ⟨some ("x").data, none⟩ 0 true ("x").data (Or.inl rfl) rfl (by decide)
  exact ⟨rfl, h.1, by simp [h.2.1], h.2.2⟩

/-- C10: a present-but-empty priorities document is indistinguishable from a
missing one: the safe read returns the empty string in both cases, and the
run fails with exit status 1, writes no report and attempts no call — the
whole outcome equals the missing-file outcome. -/
theorem runMain_empty_eq_missing (env : Env) (dir : Option (List (List Char)))
    (nowMs : Nat) (tgOk : Bool) :
    readFileSafe (some []) = readFileSafe none ∧
    runMain env ⟨some [], dir⟩ nowMs tgOk = runMain env ⟨none, dir⟩ nowMs tgOk ∧
    runMain env ⟨some [], dir⟩ nowMs tgOk = ⟨1, none, []⟩ := by
  refine ⟨rfl, ?_, ?_⟩ <;> simp [runMain, readFileSafe]
